import Mathlib

/-!
Verification of the megaengine peer-to-peer engine against its design
specification.  Rust source modules are shallowly embedded as executable
Lean definitions; external collaborators (SHA-256, SHA3-256, ed25519,
the SQLite storage layer, the filesystem) appear as explicit function
parameters or as effect lists, so that every control-flow decision made
by the embedded code is the one made by the Rust source.
-/

namespace Megaengine

/-! ## Basic byte and string helpers -/

/-- Bytes of a string, one abstract byte per character (model of `as_bytes`). -/
def strToBytes (s : String) : List Nat :=
  s.toList.map Char.toNat

/-- Hex digit for a value below 16 (lowercase, as emitted by the `hex` crate). -/
def hexDigit (n : Nat) : Char :=
  if n < 10 then Char.ofNat ('0'.toNat + n) else Char.ofNat ('a'.toNat + (n - 10))

/-- Model of `hex::encode`: two lowercase hex characters per byte. -/
def hexEncode (bs : List Nat) : String :=
  String.mk (bs.flatMap (fun b => [hexDigit (b / 16), hexDigit (b % 16)]))

/-- Numeric value of one hex character, `none` on a non-hex character. -/
def hexVal (c : Char) : Option Nat :=
  if '0' ≤ c ∧ c ≤ '9' then some (c.toNat - '0'.toNat)
  else if 'a' ≤ c ∧ c ≤ 'f' then some (c.toNat - 'a'.toNat + 10)
  else if 'A' ≤ c ∧ c ≤ 'F' then some (c.toNat - 'A'.toNat + 10)
  else none

/-- Model of `hex::decode` on a character list: pairs of hex digits. -/
def hexDecodeList : List Char → Option (List Nat)
  | [] => some []
  | [_] => none
  | a :: b :: t =>
    match hexVal a, hexVal b, hexDecodeList t with
    | some x, some y, some r => some ((16 * x + y) :: r)
    | _, _, _ => none

/-- Model of `hex::decode` on a string. -/
def hexDecode (s : String) : Option (List Nat) :=
  hexDecodeList s.toList

/-- Little-endian bytes of an `i64` (model of `i64::to_le_bytes`),
two's complement representation. -/
def i64LeBytes (t : Int) : List Nat :=
  (List.range 8).map (fun i => ((t.emod (2 ^ 64)).toNat >>> (8 * i)) % 256)

/-! ## JSON values and canonicalization (wire codec)

`SignedMessage::self_hash` canonicalizes the payload with
`serde_json::to_value`, whose object type is a `BTreeMap`: building it
inserts the fields one by one in emission order, keeping the keys sorted
and letting a later duplicate key overwrite an earlier one.  `Json` below
is the value tree, `canonicalize` the `to_value` normalization, and
`serializeJson` a deterministic model of `serde_json::to_vec`. -/

inductive Json where
  | null : Json
  | jbool (b : Bool) : Json
  | jnum (n : Int) : Json
  | jstr (s : String) : Json
  | jarr (xs : List Json) : Json
  | jobj (fs : List (String × Json)) : Json

/-- Insertion into a key-sorted association list, replacing an equal key
(one `BTreeMap::insert`). -/
def objInsert (p : String × Json) : List (String × Json) → List (String × Json)
  | [] => [p]
  | q :: rest =>
    if p.1 < q.1 then p :: q :: rest
    else if p.1 = q.1 then p :: rest
    else q :: objInsert p rest

/-- Folding a field list into a `BTreeMap`, later keys overwriting earlier ones. -/
def objInsertAll : List (String × Json) → List (String × Json) → List (String × Json)
  | [], acc => acc
  | p :: t, acc => objInsertAll t (objInsert p acc)

mutual

/-- Model of `serde_json::to_value`: recursively sort object keys. -/
def canonicalize : Json → Json
  | .null => .null
  | .jbool b => .jbool b
  | .jnum n => .jnum n
  | .jstr s => .jstr s
  | .jarr xs => .jarr (canonArr xs)
  | .jobj fs => .jobj (objInsertAll (canonPairs fs) [])

/-- Canonicalize every element of an array. -/
def canonArr : List Json → List Json
  | [] => []
  | x :: t => canonicalize x :: canonArr t

/-- Canonicalize every field value, keeping keys and order. -/
def canonPairs : List (String × Json) → List (String × Json)
  | [] => []
  | (k, v) :: t => (k, canonicalize v) :: canonPairs t

end

/-- Escaping of a JSON string body (quote and backslash). -/
def jsonEscape (s : String) : String :=
  String.mk (s.toList.flatMap (fun c => if c = '"' ∨ c = '\\' then ['\\', c] else [c]))

mutual

/-- Deterministic model of `serde_json::to_vec` (compact separators). -/
def serializeJson : Json → String
  | .null => "null"
  | .jbool b => if b then "true" else "false"
  | .jnum n => toString n
  | .jstr s => "\"" ++ jsonEscape s ++ "\""
  | .jarr xs => "[" ++ serializeArr xs ++ "]"
  | .jobj fs => "\x7b" ++ serializeObj fs ++ "\x7d"

/-- Comma-joined serialization of array elements. -/
def serializeArr : List Json → String
  | [] => ""
  | [x] => serializeJson x
  | x :: t => serializeJson x ++ "," ++ serializeArr t

/-- Comma-joined serialization of object fields. -/
def serializeObj : List (String × Json) → String
  | [] => ""
  | [(k, v)] => "\"" ++ jsonEscape k ++ "\":" ++ serializeJson v
  | (k, v) :: t => "\"" ++ jsonEscape k ++ "\":" ++ serializeJson v ++ "," ++ serializeObj t

end

/-- Two JSON values that differ only in the emission order of object keys
(at any depth).  `objSwap` permutes two adjacent distinct keys, `objTrans`
closes under composition, and the congruence constructors push the
relation under arrays and object values. -/
inductive JEquiv : Json → Json → Prop where
  | null : JEquiv .null .null
  | jbool (b : Bool) : JEquiv (.jbool b) (.jbool b)
  | jnum (n : Int) : JEquiv (.jnum n) (.jnum n)
  | jstr (s : String) : JEquiv (.jstr s) (.jstr s)
  | arrNil : JEquiv (.jarr []) (.jarr [])
  | arrCons {x y : Json} {xs ys : List Json} :
      JEquiv x y → JEquiv (.jarr xs) (.jarr ys) → JEquiv (.jarr (x :: xs)) (.jarr (y :: ys))
  | objNil : JEquiv (.jobj []) (.jobj [])
  | objCons (k : String) {v w : Json} {l₁ l₂ : List (String × Json)} :
      JEquiv v w → JEquiv (.jobj l₁) (.jobj l₂) →
      JEquiv (.jobj ((k, v) :: l₁)) (.jobj ((k, w) :: l₂))
  | objSwap (p q : String × Json) (l : List (String × Json)) :
      p.1 ≠ q.1 → JEquiv (.jobj (p :: q :: l)) (.jobj (q :: p :: l))
  | objTrans {l₁ l₂ l₃ : List (String × Json)} :
      JEquiv (.jobj l₁) (.jobj l₂) → JEquiv (.jobj l₂) (.jobj l₃) →
      JEquiv (.jobj l₁) (.jobj l₃)

theorem objInsert_cons_lt {p q : String × Json} (l : List (String × Json)) (h : p.1 < q.1) :
    objInsert p (q :: l) = p :: q :: l := by
  simp [objInsert, h]

theorem objInsert_cons_eq {p q : String × Json} (l : List (String × Json)) (h : p.1 = q.1) :
    objInsert p (q :: l) = p :: l := by
  simp [objInsert, h, lt_irrefl]

theorem objInsert_cons_gt {p q : String × Json} (l : List (String × Json)) (h : q.1 < p.1) :
    objInsert p (q :: l) = q :: objInsert p l := by
  simp [objInsert, not_lt_of_gt h, ne_of_gt h]

theorem objInsert_comm_lt (p q : String × Json) (acc : List (String × Json)) (hpq : p.1 < q.1) :
    objInsert p (objInsert q acc) = objInsert q (objInsert p acc) := by
  have hqp : ¬ q.1 < p.1 := not_lt_of_gt hpq
  have hne : q.1 ≠ p.1 := ne_of_lt hpq |>.symm
  induction acc with
  | nil =>
    show objInsert p [q] = objInsert q [p]
    rw [objInsert_cons_lt _ hpq, objInsert_cons_gt _ hpq]
    rfl
  | cons r rest ih =>
    rcases lt_trichotomy q.1 r.1 with hqr | hqr | hqr
    · have hpr : p.1 < r.1 := hpq.trans hqr
      rw [objInsert_cons_lt _ hqr, objInsert_cons_lt _ hpq, objInsert_cons_lt _ hpr,
        objInsert_cons_gt _ hpq, objInsert_cons_lt _ hqr]
    · have hpr : p.1 < r.1 := hqr ▸ hpq
      rw [objInsert_cons_eq _ hqr, objInsert_cons_lt _ hpq, objInsert_cons_lt _ hpr,
        objInsert_cons_gt _ hpq, objInsert_cons_eq _ hqr]
    · rw [objInsert_cons_gt _ hqr]
      rcases lt_trichotomy p.1 r.1 with hpr | hpr | hpr
      · rw [objInsert_cons_lt _ hpr, objInsert_cons_lt _ hpr, objInsert_cons_gt _ hpq,
          objInsert_cons_gt _ hqr]
      · rw [objInsert_cons_eq _ hpr, objInsert_cons_eq _ hpr, objInsert_cons_gt _ hpq]
      · rw [objInsert_cons_gt _ hpr, objInsert_cons_gt _ hpr, objInsert_cons_gt _ hqr, ih]

theorem objInsert_comm (p q : String × Json) (acc : List (String × Json)) (h : p.1 ≠ q.1) :
    objInsert p (objInsert q acc) = objInsert q (objInsert p acc) := by
  rcases lt_trichotomy p.1 q.1 with hlt | heq | hgt
  · exact objInsert_comm_lt p q acc hlt
  · exact absurd heq h
  · exact (objInsert_comm_lt q p acc hgt).symm

theorem canonicalize_respects_jequiv {a b : Json} (h : JEquiv a b) :
    canonicalize a = canonicalize b ∧
      (∀ l₁ l₂ acc, a = .jobj l₁ → b = .jobj l₂ →
        objInsertAll (canonPairs l₁) acc = objInsertAll (canonPairs l₂) acc) := by
  induction h with
  | null => exact ⟨rfl, by intro l₁ l₂ acc h₁ h₂; cases h₁⟩
  | jbool b => exact ⟨rfl, by intro l₁ l₂ acc h₁ h₂; cases h₁⟩
  | jnum n => exact ⟨rfl, by intro l₁ l₂ acc h₁ h₂; cases h₁⟩
  | jstr s => exact ⟨rfl, by intro l₁ l₂ acc h₁ h₂; cases h₁⟩
  | arrNil => exact ⟨rfl, by intro l₁ l₂ acc h₁ h₂; cases h₁⟩
  | arrCons hxy hxs ihxy ihxs =>
    refine ⟨?_, by intro l₁ l₂ acc h₁ h₂; cases h₁⟩
    have harr := ihxs.1
    simp only [canonicalize] at harr
    injection harr with harr'
    simp only [canonicalize, canonArr]
    rw [ihxy.1, harr']
  | objNil => exact ⟨rfl, fun l₁ l₂ acc h₁ h₂ => by cases h₁; cases h₂; rfl⟩
  | objCons k hvw htail ihvw ihtail =>
    have haux := fun acc => ihtail.2 _ _ acc rfl rfl
    refine ⟨?_, ?_⟩
    · simp only [canonicalize, Json.jobj.injEq, canonPairs, objInsertAll]
      rw [ihvw.1, haux]
    · intro l₁ l₂ acc h₁ h₂
      cases h₁; cases h₂
      simp only [canonPairs, objInsertAll]
      rw [ihvw.1, haux]
  | objSwap p q l hne =>
    have haux : ∀ acc,
        objInsertAll (canonPairs (p :: q :: l)) acc =
          objInsertAll (canonPairs (q :: p :: l)) acc := by
      intro acc
      obtain ⟨pk, pv⟩ := p
      obtain ⟨qk, qv⟩ := q
      simp only [canonPairs, objInsertAll]
      rw [objInsert_comm (pk, canonicalize pv) (qk, canonicalize qv) acc hne]
    refine ⟨?_, ?_⟩
    · simp only [canonicalize, Json.jobj.injEq]
      exact haux []
    · intro l₁ l₂ acc h₁ h₂
      cases h₁; cases h₂
      exact haux acc
  | objTrans h₁₂ h₂₃ ih₁₂ ih₂₃ =>
    refine ⟨ih₁₂.1.trans ih₂₃.1, ?_⟩
    intro l₁ l₂ acc hl₁ hl₂
    cases hl₁; cases hl₂
    exact (ih₁₂.2 _ _ acc rfl rfl).trans (ih₂₃.2 _ _ acc rfl rfl)

/-- Canonical hash of a signed envelope at the JSON layer (model of
`SignedMessage::self_hash`): the SHA-256 primitive `sha` applied to
`sender_id_utf8 || canonical_json(payload) || timestamp_le_bytes`. -/
def selfHashJ (sha : List Nat → List Nat) (senderId : String) (ts : Int) (payload : Json) :
    List Nat :=
  sha (strToBytes senderId ++ strToBytes (serializeJson (canonicalize payload)) ++ i64LeBytes ts)

/-- C7: `self_hash` is SHA-256 over `sender_id_utf8 || canonical_json(payload)
|| timestamp_le_bytes` with object keys recursively sorted, so two payload
serializations differing only in object-key emission order hash identically. -/
theorem self_hash_key_order_invariant (sha : List Nat → List Nat) (senderId : String) (ts : Int)
    (p₁ p₂ : Json) (h : JEquiv p₁ p₂) :
    selfHashJ sha senderId ts p₁ = selfHashJ sha senderId ts p₂ := by
  unfold selfHashJ
  rw [(canonicalize_respects_jequiv h).1]

/-- Witness for C7 at a concrete two-level key permutation. -/
theorem self_hash_key_order_invariant_witness :
    JEquiv (.jobj [("b", .jnum 1), ("a", .jobj [("y", .null), ("x", .null)])])
        (.jobj [("a", .jobj [("x", .null), ("y", .null)]), ("b", .jnum 1)]) ∧
      selfHashJ (fun bs => bs) "did:key:sender" 7
          (.jobj [("b", .jnum 1), ("a", .jobj [("y", .null), ("x", .null)])]) =
        selfHashJ (fun bs => bs) "did:key:sender" 7
          (.jobj [("a", .jobj [("x", .null), ("y", .null)]), ("b", .jnum 1)]) := by
  have hswap : JEquiv (.jobj [("b", .jnum 1), ("a", .jobj [("y", .null), ("x", .null)])])
      (.jobj [("a", .jobj [("y", .null), ("x", .null)]), ("b", .jnum 1)]) :=
    JEquiv.objSwap ("b", .jnum 1) ("a", .jobj [("y", .null), ("x", .null)]) [] (by decide)
  have hinner : JEquiv (.jobj [("a", .jobj [("y", .null), ("x", .null)]), ("b", .jnum 1)])
      (.jobj [("a", .jobj [("x", .null), ("y", .null)]), ("b", .jnum 1)]) :=
    JEquiv.objCons "a"
      (JEquiv.objSwap ("y", .null) ("x", .null) [] (by decide))
      (JEquiv.objCons "b" (JEquiv.jnum 1) JEquiv.objNil)
  have h := JEquiv.objTrans hswap hinner
  exact ⟨h, self_hash_key_order_invariant (fun bs => bs) "did:key:sender" 7 _ _ h⟩

/-! ## Gossip engine data model (`src/gossip/message.rs`, `src/gossip/service.rs`)

External collaborators of `GossipService::handle_incoming` are collected
in `GossipEnv`: key derivation from a NodeId (`NodeId::to_keypair`),
ed25519 verification, the SQLite repo/refs stores and the external git
tool.  Persistence and sends are recorded as a `GEffect` list; the
`seen` dedup map is threaded as the list of its keys. -/

/-- A NodeId is a textual principal (`NodeId(pub String)`). -/
abbrev NodeId := String

inductive NodeType where
  | normal : NodeType
  | relay : NodeType
  deriving DecidableEq

structure NodeAnnouncement where
  node_id : NodeId
  version : Nat
  aliasName : String
  node_type : NodeType
  addresses : List String
  deriving DecidableEq

/-- Row written to the node registry by the NodeAnnouncement handler. -/
structure NodeInfo where
  node_id : NodeId
  aliasName : String
  addresses : List String
  node_type : NodeType
  version : Nat
  deriving DecidableEq

structure P2PDescription where
  creator : String
  name : String
  description : String
  timestamp : Int
  deriving DecidableEq

/-- A repository descriptor (`Repo` in `src/repo/repo.rs`); `path` and
`bundle` are `PathBuf`s modelled as strings, empty string for empty path. -/
structure Repo where
  repo_id : String
  refs : List (String × String)
  p2p_description : P2PDescription
  path : String
  is_external : Bool
  bundle : String
  deriving DecidableEq

structure RepoAnnouncement where
  node_id : NodeId
  repos : List Repo
  deriving DecidableEq

inductive GossipMessage where
  | nodeAnnouncement (na : NodeAnnouncement) : GossipMessage
  | repoAnnouncement (ra : RepoAnnouncement) : GossipMessage
  deriving DecidableEq

structure SignedMessage where
  node_id : NodeId
  message : GossipMessage
  timestamp : Int
  signature : String
  deriving DecidableEq

/-- Wrapper `{ payload, ttl }` used on the wire (`Envelope` in
`src/gossip/service.rs`). -/
structure Envelope where
  payload : SignedMessage
  ttl : Nat
  deriving DecidableEq

def DEFAULT_TTL : Nat := 16

/-- Parse outcome of an inbound control payload: an `Envelope`, a bare
`SignedMessage` (serde fallback chain in `handle_incoming`), or neither. -/
inductive Wire where
  | env (e : Envelope) : Wire
  | bare (s : SignedMessage) : Wire
  | garbage : Wire

/-- serde JSON encoding of a `GossipMessage` (externally tagged enum,
struct fields in declaration order); feeding it through `canonicalize`
reproduces `serde_json::to_value`. -/
def gossipMessageJson : GossipMessage → Json
  | .nodeAnnouncement na =>
    .jobj [("NodeAnnouncement", .jobj
      [("node_id", .jstr na.node_id),
       ("version", .jnum na.version),
       ("alias", .jstr na.aliasName),
       ("node_type", .jstr (match na.node_type with | .normal => "Normal" | .relay => "Relay")),
       ("addresses", .jarr (na.addresses.map Json.jstr))])]
  | .repoAnnouncement ra =>
    .jobj [("RepoAnnouncement", .jobj
      [("node_id", .jstr ra.node_id),
       ("repos", .jarr (ra.repos.map (fun r =>
         .jobj [("repo_id", .jstr r.repo_id),
                ("refs", .jobj (r.refs.map (fun kv => (kv.1, Json.jstr kv.2)))),
                ("p2p_description", .jobj
                  [("creator", .jstr r.p2p_description.creator),
                   ("name", .jstr r.p2p_description.name),
                   ("description", .jstr r.p2p_description.description),
                   ("timestamp", .jnum r.p2p_description.timestamp)]),
                ("path", .jstr r.path),
                ("is_external", .jbool r.is_external),
                ("bundle", .jstr r.bundle)])))])]

/-- `SignedMessage::self_hash` over the canonical JSON of the payload. -/
def gossipSelfHash (sha : List Nat → List Nat) (m : SignedMessage) : List Nat :=
  selfHashJ sha m.node_id m.timestamp (gossipMessageJson m.message)

/-- Side effects of the gossip receive pipeline: node-registry, repo and
refs-store writes, bundle-file deletion, and forwarding to a peer. -/
inductive GEffect where
  | saveNodeInfo (info : NodeInfo) : GEffect
  | saveRepo (r : Repo) : GEffect
  | deleteBundleFile (path : String) : GEffect
  | deleteRefs (repoId : String) : GEffect
  | saveRefs (repoId : String) (refs : List (String × String)) : GEffect
  | updateRepoBundle (repoId : String) (path : String) : GEffect
  | forward (dest : NodeId) (e : Envelope) : GEffect
  deriving DecidableEq

/-- External collaborators of the gossip receive pipeline.  `hashFn` is
the canonical envelope hash (instantiated with `gossipSelfHash sha256`),
`toKeypair` models `NodeId::to_keypair` (which fails on a NodeId that
does not decode to a key), `verify` the ed25519 check, and the three
store functions the SQLite layer and the external git tool. -/
structure GossipEnv where
  toKeypair : NodeId → Option (List Nat)
  verify : List Nat → List Nat → List Nat → Bool
  hashFn : SignedMessage → List Nat
  loadRepo : String → Except Unit (Option Repo)
  extractBundleRefs : String → Except Unit (List (String × String))
  loadRefs : String → Except Unit (List (String × String))

/-- `HashMap` equality as used by `local_refs == repo.refs`: equal size
and every binding of one contained in the other. -/
def hashMapEq (a b : List (String × String)) : Bool :=
  a.length = b.length && a.all (fun kv => b.contains kv)

/-- Per-advertised-repo reconciliation (loop body of the
`RepoAnnouncement` arm of `handle_incoming`). -/
def handleRepoAdvert (E : GossipEnv) (repo : Repo) : List GEffect :=
  match E.loadRepo repo.repo_id with
  | .error _ => []
  | .ok none => [.saveRepo { repo with is_external := true }]
  | .ok (some localRepo) =>
    if localRepo.is_external = false then []
    else
      let localRefs? :=
        if localRepo.bundle ≠ "" then
          match E.extractBundleRefs localRepo.bundle with
          | .ok refs => some refs
          | .error _ => (E.loadRefs repo.repo_id).toOption
        else (E.loadRefs repo.repo_id).toOption
      match localRefs? with
      | none => []
      | some localRefs =>
        if hashMapEq localRefs repo.refs then []
        else
          (if localRepo.bundle ≠ "" then [.deleteBundleFile localRepo.bundle] else []) ++
            [.deleteRefs repo.repo_id, .saveRefs repo.repo_id repo.refs,
             .updateRepoBundle repo.repo_id ""]

/-- Payload dispatch of `handle_incoming` (§4.4.1 / §4.4.2). -/
def processMessage (E : GossipEnv) (signed : SignedMessage) : List GEffect :=
  match signed.message with
  | .nodeAnnouncement na =>
    [.saveNodeInfo ⟨na.node_id, na.aliasName, na.addresses, na.node_type, na.version⟩]
  | .repoAnnouncement ra => ra.repos.flatMap (handleRepoAdvert E)

/-- Processing plus the forward step of `handle_incoming`: the envelope
is re-broadcast to every peer other than the immediate sender when the
received ttl is positive, with the ttl decremented by one. -/
def processAndForward (E : GossipEnv) (peers : List NodeId) (fromPeer : NodeId)
    (signed : SignedMessage) (ttl : Nat) : List GEffect :=
  processMessage E signed ++
    (if 0 < ttl then
      (peers.filter (fun p => p ≠ fromPeer)).map (fun p => .forward p ⟨signed, ttl - 1⟩)
    else [])

/-- Dedup, signature verification and dispatch for one parsed signed
message (body of `handle_incoming` after the serde fallback chain). -/
def handleSigned (E : GossipEnv) (peers : List NodeId) (fromPeer : NodeId)
    (signed : SignedMessage) (ttl : Nat) (seen : List String) :
    List String × List GEffect :=
  let idh := hexEncode (E.hashFn signed)
  if seen.contains idh then (seen, [])
  else
    let seen' := idh :: seen
    match E.toKeypair signed.node_id with
    | some kp =>
      let sigBytes := (hexDecode signed.signature).getD []
      if sigBytes.length = 64 then
        if E.verify kp (E.hashFn signed) sigBytes then
          (seen', processAndForward E peers fromPeer signed ttl)
        else (seen', [])
      else (seen', [])
    | none => (seen', processAndForward E peers fromPeer signed ttl)

/-- `GossipService::handle_incoming` on one inbound control payload. -/
def handleIncoming (E : GossipEnv) (peers : List NodeId) (fromPeer : NodeId)
    (w : Wire) (seen : List String) : List String × List GEffect :=
  match w with
  | .garbage => (seen, [])
  | .env e => handleSigned E peers fromPeer e.payload e.ttl seen
  | .bare s => handleSigned E peers fromPeer s DEFAULT_TTL seen

/-! ### Gossip receive theorems -/

theorem handleRepoAdvert_no_forward (E : GossipEnv) (r : Repo) (d : NodeId) (e : Envelope) :
    GEffect.forward d e ∉ handleRepoAdvert E r := by
  unfold handleRepoAdvert
  repeat' split
  all_goals try (rcases hopt : (E.loadRefs r.repo_id).toOption with _ | lrefs <;>
    simp only [hopt] <;> simp)
  all_goals simp

theorem processMessage_no_forward (E : GossipEnv) (s : SignedMessage) (d : NodeId)
    (e : Envelope) : GEffect.forward d e ∉ processMessage E s := by
  unfold processMessage
  split
  · simp
  · intro h
    rw [List.mem_flatMap] at h
    obtain ⟨r, _, hr⟩ := h
    exact handleRepoAdvert_no_forward E r d e hr

/-- C6: a signed message whose envelope hash is already in the `seen`
map produces no persistence write and no forwarding, and leaves `seen`
unchanged, whether it arrived wrapped in an `Envelope` or bare. -/
theorem seen_envelope_no_effects (E : GossipEnv) (peers : List NodeId) (fromPeer : NodeId)
    (s : SignedMessage) (t : Nat) (seen : List String)
    (h : seen.contains (hexEncode (E.hashFn s)) = true) :
    handleIncoming E peers fromPeer (.env ⟨s, t⟩) seen = (seen, []) ∧
      handleIncoming E peers fromPeer (.bare s) seen = (seen, []) := by
  constructor
  · simp only [handleIncoming, handleSigned]
    rw [if_pos h]
  · simp only [handleIncoming, handleSigned]
    rw [if_pos h]

/-- Fixture: node announcement carried by the concrete messages below. -/
def naFix : NodeAnnouncement :=
  { node_id := "did:key:zSender", version := 1, aliasName := "sender",
    node_type := .normal, addresses := ["127.0.0.1:9000"] }

/-- Fixture: the node-registry row the handler writes for `naFix`. -/
def infoFix : NodeInfo :=
  { node_id := "did:key:zSender", aliasName := "sender",
    addresses := ["127.0.0.1:9000"], node_type := .normal, version := 1 }

/-- Fixture: a signature string that hex-decodes to 64 zero bytes. -/
def sigFix : String := String.mk (List.replicate 128 '0')

/-- Fixture: a signed node announcement. -/
def smFix : SignedMessage :=
  { node_id := "did:key:zSender", message := .nodeAnnouncement naFix,
    timestamp := 0, signature := sigFix }

/-- Fixture environment in which the sender key derives and every
signature verifies; the repo store is empty and the hash primitive is
the constant empty hash. -/
def envAccept : GossipEnv :=
  { toKeypair := fun _ => some [], verify := fun _ _ _ => true, hashFn := fun _ => [],
    loadRepo := fun _ => .ok none, extractBundleRefs := fun _ => .error (),
    loadRefs := fun _ => .error () }

/-- Fixture environment in which `NodeId::to_keypair` fails for every
sender. -/
def envNoKey : GossipEnv :=
  { toKeypair := fun _ => none, verify := fun _ _ _ => false, hashFn := fun _ => [],
    loadRepo := fun _ => .ok none, extractBundleRefs := fun _ => .error (),
    loadRefs := fun _ => .error () }

/-- Witness for C6 at a concrete already-seen hash. -/
theorem seen_envelope_no_effects_witness :
    ["" ].contains (hexEncode (envAccept.hashFn smFix)) = true ∧
      handleIncoming envAccept ["peerB"] "peerA" (.env ⟨smFix, 3⟩) ["" ] = (["" ], []) := by
  refine ⟨by decide, ?_⟩
  exact (seen_envelope_no_effects envAccept ["peerB"] "peerA" smFix 3 ["" ] (by decide)).1

/-- C1 (code bug): when the sender's verification key cannot be derived
from the NodeId (`to_keypair` returns an error), `handle_incoming` skips
signature verification entirely and still persists the announcement and
forwards the envelope, instead of dropping it as §7 (CryptoFailure: key
decoding failed) requires. -/
theorem underivable_sender_key_still_processed :
    envNoKey.toKeypair smFix.node_id = none ∧
      (handleIncoming envNoKey ["peerB"] "peerA" (.env ⟨smFix, 3⟩) []).2 =
        [.saveNodeInfo infoFix, .forward "peerB" ⟨smFix, 2⟩] := by
  constructor
  · rfl
  · decide

/-- C5 counterexample: an envelope received with ttl = 1 is forwarded
(with ttl 0), although the claim says an envelope is re-broadcast only
if the decremented ttl is still positive. -/
theorem ttl_one_envelope_forwarded :
    (handleIncoming envAccept ["peerB"] "peerA" (.env ⟨smFix, 1⟩) []).2 =
      [.saveNodeInfo infoFix, .forward "peerB" ⟨smFix, 0⟩] := by
  decide

/-- C5 as amended: the forwarder re-broadcasts iff the received ttl `t`
is positive and some peer other than the arrival peer exists; every
forwarded copy carries the same signed message with ttl `t - 1` and goes
to a peer other than the arrival peer. -/
theorem forward_iff_received_ttl_positive (E : GossipEnv) (peers : List NodeId)
    (fromPeer : NodeId) (signed : SignedMessage) (t : Nat) :
    ((∃ d e, GEffect.forward d e ∈ processAndForward E peers fromPeer signed t) ↔
      (0 < t ∧ ∃ p ∈ peers, p ≠ fromPeer)) ∧
    (∀ d e, GEffect.forward d e ∈ processAndForward E peers fromPeer signed t →
      e = ⟨signed, t - 1⟩ ∧ d ∈ peers ∧ d ≠ fromPeer) := by
  constructor
  · constructor
    · rintro ⟨d, e, hmem⟩
      rw [processAndForward, List.mem_append] at hmem
      rcases hmem with hmem | hmem
      · exact absurd hmem (processMessage_no_forward E signed d e)
      · by_cases ht : 0 < t
        · rw [if_pos ht, List.mem_map] at hmem
          obtain ⟨p, hp, hpe⟩ := hmem
          rw [List.mem_filter] at hp
          exact ⟨ht, p, hp.1, by simpa using hp.2⟩
        · rw [if_neg ht] at hmem
          exact absurd hmem (List.not_mem_nil _)
    · rintro ⟨ht, p, hp, hpf⟩
      refine ⟨p, ⟨signed, t - 1⟩, ?_⟩
      rw [processAndForward, List.mem_append, if_pos ht]
      right
      rw [List.mem_map]
      exact ⟨p, List.mem_filter.mpr ⟨hp, by simpa using hpf⟩, rfl⟩
  · intro d e hmem
    rw [processAndForward, List.mem_append] at hmem
    rcases hmem with hmem | hmem
    · exact absurd hmem (processMessage_no_forward E signed d e)
    · by_cases ht : 0 < t
      · rw [if_pos ht, List.mem_map] at hmem
        obtain ⟨p, hp, hpe⟩ := hmem
        rw [List.mem_filter] at hp
        cases hpe
        exact ⟨rfl, hp.1, by simpa using hp.2⟩
      · rw [if_neg ht] at hmem
        exact absurd hmem (List.not_mem_nil _)

/-- Witness for the amended C5 at a concrete peer list and ttl 1. -/
theorem forward_iff_received_ttl_positive_witness :
    (0 < 1 ∧ ∃ p ∈ ["peerB"], p ≠ "peerA") ∧
      (∃ d e, GEffect.forward d e ∈ processAndForward envAccept ["peerB"] "peerA" smFix 1) := by
  refine ⟨⟨Nat.one_pos, "peerB", by decide, by decide⟩, ?_⟩
  exact (forward_iff_received_ttl_positive envAccept ["peerB"] "peerA" smFix 1).1.mpr
    ⟨Nat.one_pos, "peerB", by decide, by decide⟩

/-- Fixture: an advertised descriptor carrying non-empty path fields. -/
def repoAdvFix : Repo :=
  { repo_id := "did:repo:zAbc", refs := [("refs/heads/main", "h1")],
    p2p_description := { creator := "c", name := "n", description := "d", timestamp := 0 },
    path := "/srv/evil", is_external := false, bundle := "/srv/evil.bundle" }

/-- C4 counterexample: for an advertised repo with no local row the
handler inserts the descriptor with its advertised `path` and `bundle`
kept verbatim (here non-empty), not blanked as the claim states. -/
theorem repo_not_found_insert_keeps_paths :
    handleRepoAdvert envAccept repoAdvFix =
        [.saveRepo { repoAdvFix with is_external := true }] ∧
      ({ repoAdvFix with is_external := true } : Repo).bundle ≠ "" ∧
      ({ repoAdvFix with is_external := true } : Repo).path ≠ "" := by
  refine ⟨by decide, by decide, by decide⟩

/-- C4 as amended: an advertised repo with no local row is inserted with
`is_external := true` and every other field — including `path` and
`bundle` — taken verbatim from the advertisement (the announcer, not the
receiver, blanks the paths in `new_repo_sign_message`). -/
theorem repo_not_found_inserted_external_verbatim (E : GossipEnv) (r : Repo)
    (h : E.loadRepo r.repo_id = .ok none) :
    handleRepoAdvert E r = [.saveRepo { r with is_external := true }] := by
  unfold handleRepoAdvert
  rw [h]

/-- Witness for the amended C4 at the concrete fixture. -/
theorem repo_not_found_inserted_external_verbatim_witness :
    envAccept.loadRepo repoAdvFix.repo_id = .ok none ∧
      handleRepoAdvert envAccept repoAdvFix =
        [.saveRepo { repoAdvFix with is_external := true }] := by
  exact ⟨rfl, repo_not_found_inserted_external_verbatim envAccept repoAdvFix rfl⟩

/-! ## Messaging engine (`src/chat/service.rs`)

`process_incoming_chat` and `process_ack` are embedded as pure functions
from the parsed message, the local node id and the connected-peer list to
a list of effects.  Neither function receives the transport-level arrival
peer; re-signing of the forwarded envelope (local key, fresh timestamp)
affects only bytes on the wire, so a forwarded send is recorded together
with the inner message it carries. -/

/-- `EncryptedChatMessage` payload. -/
structure EncryptedChatMessage where
  sender_id : NodeId
  receiver_id : NodeId
  msg_id : String
  ciphertext : List Nat
  deriving DecidableEq

/-- `ChatAckMessage` payload; `signature` is the per-message signature
over `msg_id`. -/
structure ChatAckMessage where
  sender_id : NodeId
  target_id : NodeId
  msg_id : String
  timestamp : Int
  signature : String
  deriving DecidableEq

/-- Persistent chat-row status (`MessageStatus`). -/
inductive MessageStatus where
  | sending : MessageStatus
  | sent : MessageStatus
  | delivered : MessageStatus
  | failed : MessageStatus
  deriving DecidableEq

/-- Effects of the two inbound chat handlers: database writes and sends
of re-signed envelopes carrying the given inner payload. -/
inductive ChatEffect where
  | updateStatus (msgId : String) (st : MessageStatus) : ChatEffect
  | saveMessage (id fromNode toNode content : String) (st : MessageStatus) : ChatEffect
  | sendChatFwd (dest : NodeId) (m : EncryptedChatMessage) : ChatEffect
  | sendAckFwd (dest : NodeId) (a : ChatAckMessage) : ChatEffect
  | sendAckNew (dest : NodeId) (a : ChatAckMessage) : ChatEffect
  deriving DecidableEq

/-- External collaborators of the inbound chat handler: AEAD decryption
with the local private key, the duplicate-row check, the wall clock and
the local signing primitive. -/
structure ChatEnv where
  decrypt : List Nat → Option String
  dbHas : String → Bool
  now : Int
  signHex : List Nat → String

/-- `process_incoming_chat`: relay when the inner receiver is not the
local node (direct send if the receiver is itself a connected peer, else
broadcast to every peer except the one equal to the inner `sender_id`);
otherwise decrypt, store once, and broadcast an ack to all peers. -/
def processIncomingChat (env : ChatEnv) (selfId : NodeId) (peers : List NodeId)
    (m : EncryptedChatMessage) : List ChatEffect :=
  if m.receiver_id ≠ selfId then
    if peers.contains m.receiver_id then [.sendChatFwd m.receiver_id m]
    else (peers.filter (fun p => p ≠ m.sender_id)).map (fun p => .sendChatFwd p m)
  else
    match env.decrypt m.ciphertext with
    | none => []
    | some content =>
      (if env.dbHas m.msg_id then []
       else [.saveMessage m.msg_id m.sender_id selfId content .delivered]) ++
      (let ack : ChatAckMessage :=
        { sender_id := selfId, target_id := m.sender_id, msg_id := m.msg_id,
          timestamp := env.now, signature := env.signHex (strToBytes m.msg_id) }
       peers.map (fun p => .sendAckNew p ack))

/-- `process_ack`: relay when the ack's target is not the local node
(direct send if the target is a connected peer, else broadcast to every
peer except the one equal to the ack's `sender_id`); otherwise update the
row with the ack's `msg_id` to `Delivered`. -/
def processAck (selfId : NodeId) (peers : List NodeId) (a : ChatAckMessage) :
    List ChatEffect :=
  if a.target_id ≠ selfId then
    if peers.contains a.target_id then [.sendAckFwd a.target_id a]
    else (peers.filter (fun p => p ≠ a.sender_id)).map (fun p => .sendAckFwd p a)
  else [.updateStatus a.msg_id .delivered]

/-- Destinations of the send effects in a chat-handler effect list. -/
def chatSendDests (effs : List ChatEffect) : List NodeId :=
  effs.filterMap (fun e =>
    match e with
    | .sendChatFwd d _ => some d
    | .sendAckFwd d _ => some d
    | .sendAckNew d _ => some d
    | _ => none)

/-- Fixture environment for the chat handlers. -/
def chatEnvFix : ChatEnv :=
  { decrypt := fun _ => none, dbHas := fun _ => false, now := 0, signHex := fun _ => "" }

/-- Fixture: a relayed chat message whose inner sender differs from the
peer it arrives from. -/
def chatMsgFix : EncryptedChatMessage :=
  { sender_id := "did:key:zAlice", receiver_id := "did:key:zBob",
    msg_id := "m-1", ciphertext := [1, 2, 3] }

/-- C3 counterexample: node S relays `chatMsgFix` (receiver Bob is not
connected); the only connected peer P is also the transport-level peer
the message arrived from, yet the handler still sends to P, because it
excludes the inner `sender_id` (Alice) and never learns the arrival
peer.  The claim demands the send set `peers minus the arrival peer`,
which here is empty. -/
theorem relay_broadcast_includes_arrival_peer :
    chatSendDests (processIncomingChat chatEnvFix "did:key:zSelf" ["did:key:zPeerP"] chatMsgFix) =
        ["did:key:zPeerP"] ∧
      (["did:key:zPeerP"] : List NodeId).filter (fun p => p ≠ "did:key:zPeerP") = [] := by
  exact ⟨by decide, by decide⟩

/-- C3 as amended: for an inbound EncryptedChat whose receiver is neither
the local node nor a connected peer, the relaying node broadcasts the
re-signed envelope to every connected peer except any peer equal to the
inner `EncryptedChat.sender_id`; the transport-level arrival peer is not
available to the handler and is not excluded. -/
theorem relay_broadcast_excludes_inner_sender (env : ChatEnv) (selfId : NodeId)
    (peers : List NodeId) (m : EncryptedChatMessage)
    (hrecv : m.receiver_id ≠ selfId) (hnotpeer : peers.contains m.receiver_id = false) :
    processIncomingChat env selfId peers m =
      (peers.filter (fun p => p ≠ m.sender_id)).map (fun p => .sendChatFwd p m) := by
  unfold processIncomingChat
  rw [if_pos hrecv, if_neg (by rw [hnotpeer]; exact Bool.false_ne_true)]

/-- Witness for the amended C3 at concrete peers. -/
theorem relay_broadcast_excludes_inner_sender_witness :
    ("did:key:zBob" : NodeId) ≠ "did:key:zSelf" ∧
      (["did:key:zAlice", "did:key:zPeerP"] : List NodeId).contains "did:key:zBob" = false ∧
      processIncomingChat chatEnvFix "did:key:zSelf" ["did:key:zAlice", "did:key:zPeerP"]
          chatMsgFix =
        [.sendChatFwd "did:key:zPeerP" chatMsgFix] := by
  refine ⟨by decide, by decide, ?_⟩
  rw [relay_broadcast_excludes_inner_sender chatEnvFix "did:key:zSelf"
    ["did:key:zAlice", "did:key:zPeerP"] chatMsgFix (by decide) (by decide)]
  decide

/-- C8: an ack addressed to the local node updates the row with the
ack's msg_id to `Delivered`; the embedded `signature` field is never
examined, so two acks differing only in that field produce identical
effects. -/
theorem ack_signature_never_verified (selfId : NodeId) (peers : List NodeId)
    (a : ChatAckMessage) (s : String) (h : a.target_id = selfId) :
    processAck selfId peers { a with signature := s } = processAck selfId peers a ∧
      processAck selfId peers a = [.updateStatus a.msg_id .delivered] := by
  unfold processAck
  rw [if_neg (by simp [h]), if_neg (by simp [h])]
  exact ⟨rfl, rfl⟩

/-- Witness for C8 at a concrete ack and flipped signature. -/
theorem ack_signature_never_verified_witness :
    ("did:key:zSelf" : NodeId) = "did:key:zSelf" ∧
      processAck "did:key:zSelf" ["did:key:zPeerP"]
          { sender_id := "did:key:zBob", target_id := "did:key:zSelf", msg_id := "m-1",
            timestamp := 0, signature := "ffff" } =
        [.updateStatus "m-1" .delivered] := by
  refine ⟨rfl, ?_⟩
  exact (ack_signature_never_verified "did:key:zSelf" ["did:key:zPeerP"]
    { sender_id := "did:key:zBob", target_id := "did:key:zSelf", msg_id := "m-1",
      timestamp := 0, signature := "ffff" } "00" rfl).2

/-! ## Transport demultiplexing (`src/transport/quic.rs`)

`spawn_message_handler` and the receive loop in `connect` route each
complete stream payload by prefix; sink registrations are modelled by two
booleans.  A `"DATA:"` payload with no data sink registered falls
through to the gossip branch without the `continue`, so the control sink
receives the bytes with the tag still attached. -/

/-- Byte tag `b"DATA:"`. -/
def dataTag : List Nat := strToBytes "DATA:"

/-- Byte tag `b"GOSSIP:"`. -/
def gossipTag : List Nat := strToBytes "GOSSIP:"

/-- Destination of one received payload. -/
inductive RouteResult where
  | toData (payload : List Nat) : RouteResult
  | toGossip (payload : List Nat) : RouteResult
  | logOnly : RouteResult
  deriving DecidableEq

/-- Per-payload routing of the transport receive loops. -/
def routeIncoming (hasDataSink hasGossipSink : Bool) (bytes : List Nat) : RouteResult :=
  if dataTag.isPrefixOf bytes ∧ hasDataSink then .toData (bytes.drop dataTag.length)
  else
    let payload := if gossipTag.isPrefixOf bytes then bytes.drop gossipTag.length else bytes
    if hasGossipSink then .toGossip payload else .logOnly

theorem dataTag_eq : dataTag = [68, 65, 84, 65, 58] := by decide

theorem gossipTag_eq : gossipTag = [71, 79, 83, 83, 73, 80, 58] := by decide

/-- C9: a `"DATA:"`-tagged payload is delivered to the data sink with the
tag stripped when a data sink is registered, and falls through to the
control (gossip) sink with the tag still attached when none is. -/
theorem data_tag_no_sink_goes_to_gossip (payload : List Nat) (hasGossipSink : Bool) :
    routeIncoming false true (dataTag ++ payload) = .toGossip (dataTag ++ payload) ∧
      routeIncoming true hasGossipSink (dataTag ++ payload) = .toData payload := by
  constructor
  · simp [routeIncoming, dataTag_eq, gossipTag_eq, List.isPrefixOf_cons₂]
  · simp [routeIncoming, dataTag_eq, gossipTag_eq, List.isPrefixOf_cons₂]

/-! ## Bundle transfer engine (`src/bundle/transfer.rs`)

The sender slices the bundle bytes into 64 KiB chunks with 0-based
indices (`bundle_data.chunks(TRANSFER_CHUNK_SIZE).enumerate()`); the
receiver truncates the per-(sender, repo) file on Start and writes each
Chunk at offset `chunk_idx * TRANSFER_CHUNK_SIZE`.  Files are byte
lists; a positioned write beyond the end zero-fills the gap, as a
`seek`-past-EOF write does.  The filesystem-safe fragments
`get_node_id_last_part` / `get_repo_id_last_part` live in `util.rs`
(not under `src/`) and enter as opaque encoder parameters: every frame
handler recomputes the same key from the same inputs, which is all the
reassembly argument uses. -/

def TRANSFER_CHUNK_SIZE : Nat := 65536

/-- `BundleMessageType` frames. -/
inductive Frame where
  | request (repoId : String) : Frame
  | start (repoId : String) (fileName : String) (totalSize : Nat) : Frame
  | chunk (repoId : String) (chunkIdx : Nat) (data : List Nat) : Frame
  | done (repoId : String) : Frame

/-- `slice::chunks(S)` paired with 0-based indices starting at `i`
(model of `.chunks(S).enumerate()`; empty input gives no chunks). -/
def enumChunksFrom (S i : Nat) (B : List Nat) : List (Nat × List Nat) :=
  if h : B = [] ∨ S = 0 then []
  else (i, B.take S) :: enumChunksFrom S (i + 1) (B.drop S)
termination_by B.length
decreasing_by
  push_neg at h
  have hB : 0 < B.length := List.length_pos.mpr h.1
  simp only [List.length_drop]
  exact Nat.sub_lt hB (Nat.pos_of_ne_zero h.2)

/-- The chunk sequence emitted by `send_bundle`. -/
def enumChunks (S : Nat) (B : List Nat) : List (Nat × List Nat) :=
  enumChunksFrom S 0 B

/-- Positioned write: bytes `data` at offset `off` into file `f`,
zero-filling any gap past the previous end of file. -/
def writeAt (off : Nat) (data f : List Nat) : List Nat :=
  (f.take off ++ List.replicate (off - f.length) 0) ++ data ++ f.drop (off + data.length)

/-- Left-to-right application of indexed chunk writes (the receiver's
chunk handler, restricted to one file). -/
def applyChunks (S : Nat) (l : List (Nat × List Nat)) (f : List Nat) : List Nat :=
  l.foldl (fun acc kd => writeAt (kd.1 * S) kd.2 acc) f

/-- Filesystem fragments for the transfer path, parameters for
`get_node_id_last_part` and `get_repo_id_last_part` from `util.rs`. -/
structure TransferEnv where
  encNode : String → String
  encRepo : String → String

/-- The receiver's bundle directory: per-(encoded sender, encoded repo)
file contents, `none` when the file does not exist. -/
def Store : Type := String × String → Option (List Nat)

/-- On-disk location of a transfer, `<storage_root>/<encNode
fromNode>/<encRepo repoId>.bundle`. -/
def transferKey (E : TransferEnv) (fromNode repoId : String) : String × String :=
  (E.encNode fromNode, E.encRepo repoId)

/-- Non-file effects of the receiver. -/
inductive TEffect where
  | servedRequest (fromNode repoId : String) : TEffect
  | updatedRepoBundle (repoId senderDir fileStem : String) : TEffect
  | warnedFileMissing (repoId : String) : TEffect
  deriving DecidableEq

/-- `BundleTransferManager::handle_bundle_message` on one frame:
Request serves the repo (modelled as one coarse effect), Start truncates
or creates the file, Chunk opens-or-creates and writes at
`chunk_idx * TRANSFER_CHUNK_SIZE`, Done reports the file if present. -/
def handleFrame (E : TransferEnv) (fromNode : String) (st : Store) :
    Frame → Store × List TEffect
  | .request rid => (st, [.servedRequest fromNode rid])
  | .start rid _ _ =>
    let key := transferKey E fromNode rid
    (fun k => if k = key then some [] else st k, [])
  | .chunk rid idx data =>
    let key := transferKey E fromNode rid
    let f := (st key).getD []
    (fun k => if k = key then some (writeAt (idx * TRANSFER_CHUNK_SIZE) data f) else st k, [])
  | .done rid =>
    let key := transferKey E fromNode rid
    match st key with
    | some _ => (st, [.updatedRepoBundle rid key.1 key.2])
    | none => (st, [.warnedFileMissing rid])

/-- Sequential receipt of a frame list. -/
def runFrames (E : TransferEnv) (fromNode : String) (st : Store) :
    List Frame → Store × List TEffect
  | [] => (st, [])
  | fr :: rest =>
    let step := handleFrame E fromNode st fr
    let rec' := runFrames E fromNode step.1 rest
    (rec'.1, step.2 ++ rec'.2)

/-! ### File-write lemmas -/

theorem writeAt_front_length (off : Nat) (f : List Nat) :
    (f.take off ++ List.replicate (off - f.length) 0).length = off := by
  rw [List.length_append, List.length_take, List.length_replicate]
  omega

theorem writeAt_length (off : Nat) (data f : List Nat) :
    (writeAt off data f).length = max (off + data.length) f.length := by
  rw [writeAt, List.length_append, List.length_append, writeAt_front_length,
    List.length_drop]
  omega

theorem writeAt_getElem?_lt {off i : Nat} (data f : List Nat) (h : i < off) :
    (writeAt off data f)[i]? = some (f.getD i 0) := by
  have hfront := writeAt_front_length off f
  rw [writeAt, List.append_assoc, List.getElem?_append_left (by rw [hfront]; exact h),
    List.getD_eq_getElem?_getD]
  rcases Nat.lt_or_ge i f.length with hif | hif
  · rw [List.getElem?_append_left (by rw [List.length_take]; exact lt_min h hif),
      List.getElem?_take_of_lt h, List.getElem?_eq_getElem hif]
    rfl
  · have htake : (f.take off).length = f.length := by
      rw [List.length_take]
      exact Nat.min_eq_right (hif.trans (Nat.le_of_lt h))
    rw [List.getElem?_append_right (htake ▸ hif),
      List.getElem?_replicate_of_lt (by rw [htake]; exact Nat.sub_lt_sub_right hif h),
      List.getElem?_eq_none hif]
    rfl

theorem writeAt_getElem?_mid {off i : Nat} (data f : List Nat) (h₁ : off ≤ i)
    (h₂ : i < off + data.length) : (writeAt off data f)[i]? = data[i - off]? := by
  have hfront := writeAt_front_length off f
  rw [writeAt, List.append_assoc, List.getElem?_append_right (by rw [hfront]; exact h₁),
    hfront, List.getElem?_append_left (by omega)]

theorem writeAt_getElem?_ge {off i : Nat} (data f : List Nat) (h : off + data.length ≤ i) :
    (writeAt off data f)[i]? = f[i]? := by
  have hfront := writeAt_front_length off f
  have h₁ : off ≤ i := le_trans (Nat.le_add_right _ _) h
  rw [writeAt, List.append_assoc, List.getElem?_append_right (by rw [hfront]; exact h₁),
    hfront, List.getElem?_append_right (Nat.le_sub_of_add_le (by omega)),
    List.getElem?_drop]
  congr 1
  omega

/-! ### Chunk enumeration lemmas -/

theorem enumChunksFrom_nil (S i : Nat) : enumChunksFrom S i [] = [] := by
  unfold enumChunksFrom
  simp

theorem enumChunksFrom_cons {S : Nat} (hS : 0 < S) {B : List Nat} (hB : B ≠ []) (i : Nat) :
    enumChunksFrom S i B = (i, B.take S) :: enumChunksFrom S (i + 1) (B.drop S) := by
  rw [enumChunksFrom]
  rw [dif_neg (by push_neg; exact ⟨hB, Nat.pos_iff_ne_zero.mp hS⟩)]

/-- End-offset accumulator for file length after a sequence of writes. -/
def endAcc (S : Nat) (a : Nat) (kd : Nat × List Nat) : Nat :=
  max (kd.1 * S + kd.2.length) a

theorem applyChunks_length (S : Nat) (l : List (Nat × List Nat)) :
    ∀ f : List Nat, (applyChunks S l f).length = l.foldl (endAcc S) f.length := by
  induction l with
  | nil => intro f; rfl
  | cons kd t ih =>
    intro f
    show (applyChunks S t (writeAt (kd.1 * S) kd.2 f)).length = _
    rw [ih, List.foldl_cons, endAcc, writeAt_length]

theorem foldl_endAcc_enumChunksFrom {S : Nat} (hS : 0 < S) :
    ∀ (n : Nat) (B : List Nat), B.length ≤ n → B ≠ [] →
      ∀ i a, (enumChunksFrom S i B).foldl (endAcc S) a = max (i * S + B.length) a := by
  intro n
  induction n with
  | zero =>
    intro B hlen hne
    cases B with
    | nil => exact absurd rfl hne
    | cons x t => simp at hlen
  | succ n ih =>
    intro B hlen hne i a
    rw [enumChunksFrom_cons hS hne, List.foldl_cons]
    by_cases hd : B.drop S = []
    · have hBS : B.length ≤ S := List.drop_eq_nil_iff.mp hd
      rw [hd, enumChunksFrom_nil, List.foldl_nil, endAcc, List.length_take]
      dsimp only
      congr 1
      omega
    · have hSB : S < B.length := by
        by_contra hc
        exact hd (List.drop_eq_nil_iff.mpr (by omega))
      rw [ih (B.drop S) (by rw [List.length_drop]; omega) hd (i + 1) _,
        List.length_drop, endAcc, List.length_take]
      dsimp only
      have : (i + 1) * S = i * S + S := by ring
      rw [this]
      omega

theorem mem_enumChunksFrom_shape {S : Nat} (hS : 0 < S) :
    ∀ (n : Nat) (B : List Nat), B.length ≤ n → ∀ i k d,
      (k, d) ∈ enumChunksFrom S i B → i ≤ k ∧ d.length ≤ S := by
  intro n
  induction n with
  | zero =>
    intro B hlen i k d hmem
    have : B = [] := by cases B with
      | nil => rfl
      | cons x t => simp at hlen
    rw [this, enumChunksFrom_nil] at hmem
    cases hmem
  | succ n ih =>
    intro B hlen i k d hmem
    by_cases hne : B = []
    · rw [hne, enumChunksFrom_nil] at hmem; cases hmem
    · rw [enumChunksFrom_cons hS hne] at hmem
      rcases List.mem_cons.mp hmem with heq | htail
      · cases heq
        exact ⟨Nat.le_refl _, by rw [List.length_take]; omega⟩
      · have := ih (B.drop S) (by rw [List.length_drop]; omega) (i + 1) k d htail
        exact ⟨by omega, this.2⟩

theorem chunk_mem_enumChunksFrom {S : Nat} (hS : 0 < S) :
    ∀ (n : Nat) (B : List Nat), B.length ≤ n → ∀ i k, k * S < B.length →
      (i + k, (B.drop (k * S)).take S) ∈ enumChunksFrom S i B := by
  intro n
  induction n with
  | zero =>
    intro B hlen i k hk
    omega
  | succ n ih =>
    intro B hlen i k hk
    have hne : B ≠ [] := by
      intro h
      rw [h] at hk
      simp at hk
    rw [enumChunksFrom_cons hS hne]
    cases k with
    | zero =>
      simp only [Nat.add_zero, Nat.zero_mul, List.drop_zero]
      exact List.mem_cons_self _ _
    | succ k' =>
      apply List.mem_cons_of_mem
      have hexp : (k' + 1) * S = k' * S + S := by ring
      have hmem := ih (B.drop S) (by rw [List.length_drop]; omega) (i + 1) k'
        (by rw [List.length_drop]; omega)
      have hdd : (B.drop S).drop (k' * S) = B.drop ((k' + 1) * S) := by
        rw [List.drop_drop]
        congr 1
        omega
      have hidx : i + 1 + k' = i + (k' + 1) := by omega
      rw [hidx, hdd] at hmem
      exact hmem

/-- Disjointness of the file ranges of two indexed chunks. -/
def chunkDisj (S : Nat) (a b : Nat × List Nat) : Prop :=
  a.1 * S + a.2.length ≤ b.1 * S ∨ b.1 * S + b.2.length ≤ a.1 * S

theorem chunkDisj_symm {S : Nat} : ∀ {a b}, chunkDisj S a b → chunkDisj S b a :=
  fun h => h.symm

/-- Position `i` lies in the file range written by chunk `kd`. -/
def covers (S : Nat) (kd : Nat × List Nat) (i : Nat) : Prop :=
  kd.1 * S ≤ i ∧ i < kd.1 * S + kd.2.length

theorem pairwise_enumChunksFrom {S : Nat} (hS : 0 < S) :
    ∀ (n : Nat) (B : List Nat), B.length ≤ n → ∀ i,
      (enumChunksFrom S i B).Pairwise (chunkDisj S) := by
  intro n
  induction n with
  | zero =>
    intro B hlen i
    cases B with
    | nil => rw [enumChunksFrom_nil]; exact List.Pairwise.nil
    | cons x t => simp at hlen
  | succ n ih =>
    intro B hlen i
    by_cases hne : B = []
    · rw [hne, enumChunksFrom_nil]; exact List.Pairwise.nil
    · rw [enumChunksFrom_cons hS hne]
      refine List.Pairwise.cons ?_ (ih (B.drop S) (by rw [List.length_drop]; omega) (i + 1))
      intro kd hkd
      obtain ⟨hk, _⟩ :=
        mem_enumChunksFrom_shape hS (B.drop S).length (B.drop S) (Nat.le_refl _)
          (i + 1) kd.1 kd.2 hkd
      left
      dsimp only [chunkDisj]
      rw [List.length_take]
      have h1 : (i + 1) * S = i * S + S := by ring
      have h2 : (i + 1) * S ≤ kd.1 * S := Nat.mul_le_mul_right S hk
      omega

theorem applyChunks_getElem?_uncovered (S : Nat) :
    ∀ (l : List (Nat × List Nat)) (f : List Nat) (i : Nat),
      (∀ kd ∈ l, ¬ covers S kd i) → i < f.length →
      (applyChunks S l f)[i]? = f[i]? := by
  intro l
  induction l with
  | nil => intro f i _ _; rfl
  | cons kd t ih =>
    intro f i hunc hlt
    have hkd := hunc kd (List.mem_cons_self ..)
    simp only [covers, not_and, not_lt] at hkd
    show (applyChunks S t (writeAt (kd.1 * S) kd.2 f))[i]? = f[i]?
    have hlen : i < (writeAt (kd.1 * S) kd.2 f).length := by
      rw [writeAt_length]
      exact lt_of_lt_of_le hlt (le_max_right _ _)
    rw [ih _ i (fun kd' h' => hunc kd' (List.mem_cons_of_mem _ h')) hlen]
    rcases Nat.lt_or_ge i (kd.1 * S) with h | h
    · have hD : f.getD i 0 = f[i] := by
        rw [List.getD_eq_getElem?_getD, List.getElem?_eq_getElem hlt]
        rfl
      rw [writeAt_getElem?_lt _ _ h, hD, List.getElem?_eq_getElem hlt]
    · exact writeAt_getElem?_ge _ _ (hkd h)

theorem applyChunks_getElem?_covered (S : Nat) :
    ∀ (l : List (Nat × List Nat)) (f : List Nat) (k : Nat) (d : List Nat) (j : Nat),
      l.Pairwise (chunkDisj S) → (k, d) ∈ l → j < d.length →
      (applyChunks S l f)[k * S + j]? = d[j]? := by
  intro l
  induction l with
  | nil => intro f k d j _ hmem; cases hmem
  | cons hd t ih =>
    intro f k d j hpw hmem hj
    obtain ⟨hdisj, hpw'⟩ := List.pairwise_cons.mp hpw
    rcases List.mem_cons.mp hmem with heq | htail
    · cases heq
      show (applyChunks S t (writeAt ((k, d).1 * S) (k, d).2 f))[k * S + j]? = d[j]?
      dsimp only
      have huncov : ∀ kd' ∈ t, ¬ covers S kd' (k * S + j) := by
        intro kd' ht' hcov
        have hdj := hdisj kd' ht'
        dsimp only [chunkDisj] at hdj
        dsimp only [covers] at hcov
        omega
      have hlen : k * S + j < (writeAt (k * S) d f).length := by
        rw [writeAt_length]
        have := le_max_left (k * S + d.length) f.length
        omega
      rw [applyChunks_getElem?_uncovered S t _ _ huncov hlen,
        writeAt_getElem?_mid _ _ (Nat.le_add_right _ _) (by omega),
        Nat.add_sub_cancel_left]
    · exact ih _ k d j hpw' htail hj

/-- Reassembly: applying all chunks of `B`, in any order, to an empty
file reproduces `B` exactly. -/
theorem applyChunks_perm {S : Nat} (hS : 0 < S) (B : List Nat)
    (l : List (Nat × List Nat)) (hperm : l.Perm (enumChunks S B)) :
    applyChunks S l [] = B := by
  by_cases hB : B = []
  · subst hB
    rw [enumChunks, enumChunksFrom_nil] at hperm
    rw [hperm.eq_nil]
    rfl
  · have hlen : (applyChunks S l []).length = B.length := by
      haveI : RightCommutative (endAcc S) :=
        ⟨fun b a₁ a₂ => by dsimp only [endAcc]; rw [max_left_comm]⟩
      rw [applyChunks_length, List.length_nil, hperm.foldl_eq (f := endAcc S) 0,
        enumChunks, foldl_endAcc_enumChunksFrom hS B.length B (Nat.le_refl _) hB 0 0]
      simp
    apply List.ext_getElem?
    intro n
    by_cases hn : n < B.length
    · have hkS : n / S * S ≤ n := Nat.div_mul_le_self n S
      have hnkj : n / S * S + n % S = n := by
        have h := Nat.div_add_mod n S
        have hc : n / S * S = S * (n / S) := Nat.mul_comm _ _
        omega
      have hjS : n % S < S := Nat.mod_lt _ hS
      have hkB : n / S * S < B.length := lt_of_le_of_lt hkS hn
      have hmem0 : (0 + n / S, (B.drop (n / S * S)).take S) ∈ enumChunks S B :=
        chunk_mem_enumChunksFrom hS B.length B (Nat.le_refl _) 0 (n / S) hkB
      rw [Nat.zero_add] at hmem0
      have hmem : (n / S, (B.drop (n / S * S)).take S) ∈ l := hperm.mem_iff.mpr hmem0
      have hpw : l.Pairwise (chunkDisj S) :=
        (hperm.pairwise_iff chunkDisj_symm).mpr
          (pairwise_enumChunksFrom hS B.length B (Nat.le_refl _) 0)
      have hjd : n % S < ((B.drop (n / S * S)).take S).length := by
        rw [List.length_take, List.length_drop]
        exact lt_min hjS (by omega)
      rw [← hnkj, applyChunks_getElem?_covered S l [] (n / S) _ (n % S) hpw hmem hjd,
        List.getElem?_take_of_lt hjS, List.getElem?_drop]
    · rw [List.getElem?_eq_none (by omega), List.getElem?_eq_none (by omega)]

/-! ### Receiver runs -/

/-- The empty bundle directory. -/
def emptyStore : Store := fun _ => none

theorem runFrames_store_append (E : TransferEnv) (fromNode : String) :
    ∀ (a b : List Frame) (st : Store),
      (runFrames E fromNode st (a ++ b)).1 =
        (runFrames E fromNode (runFrames E fromNode st a).1 b).1 := by
  intro a
  induction a with
  | nil => intro b st; rfl
  | cons fr t ih =>
    intro b st
    simp only [List.cons_append, runFrames]
    exact ih b _

theorem handleFrame_done_store (E : TransferEnv) (fromNode : String) (st : Store)
    (rid : String) : (handleFrame E fromNode st (.done rid)).1 = st := by
  rcases hst : st (transferKey E fromNode rid) with _ | f <;> simp [handleFrame, hst]

theorem runFrames_chunks_store (E : TransferEnv) (s r : String) :
    ∀ (l : List (Nat × List Nat)) (st : Store) (f : List Nat),
      st (transferKey E s r) = some f →
      (runFrames E s st (l.map (fun kd => Frame.chunk r kd.1 kd.2))).1 (transferKey E s r) =
        some (applyChunks TRANSFER_CHUNK_SIZE l f) := by
  intro l
  induction l with
  | nil => intro st f hst; exact hst
  | cons kd t ih =>
    intro st f hst
    simp only [List.map_cons, runFrames]
    apply ih
    show (handleFrame E s st (.chunk r kd.1 kd.2)).1 (transferKey E s r) = _
    simp only [handleFrame, if_true, hst]
    rfl

/-- C2: after Start, all the chunks of `B` delivered in any order, and
Done, the file at `<storage_root>/<encoded sender>/<encoded repo>.bundle`
holds exactly the bytes of `B` (and so has length `|B|`). -/
theorem transfer_reassembles_any_order (E : TransferEnv) (s r name : String)
    (B : List Nat) (l : List (Nat × List Nat))
    (hperm : l.Perm (enumChunks TRANSFER_CHUNK_SIZE B)) :
    (runFrames E s emptyStore
        (Frame.start r name B.length ::
          (l.map (fun kd => Frame.chunk r kd.1 kd.2) ++ [Frame.done r]))).1
      (transferKey E s r) = some B := by
  have hS : 0 < TRANSFER_CHUNK_SIZE := by decide
  simp only [runFrames]
  rw [runFrames_store_append]
  have hdone : ∀ st : Store, (runFrames E s st [Frame.done r]).1 = st := by
    intro st
    simp only [runFrames]
    rw [handleFrame_done_store]
  rw [hdone]
  have hstart : (handleFrame E s emptyStore (.start r name B.length)).1 (transferKey E s r) =
      some [] := by
    simp [handleFrame]
  rw [runFrames_chunks_store E s r l _ [] hstart, applyChunks_perm hS B l hperm]

/-- Fixture transfer environment with identity fragment encoders. -/
def envTransferFix : TransferEnv :=
  { encNode := fun x => x, encRepo := fun x => x }

/-- Witness for C2 at a concrete three-byte bundle. -/
theorem transfer_reassembles_any_order_witness :
    (enumChunks TRANSFER_CHUNK_SIZE [1, 2, 3]).Perm (enumChunks TRANSFER_CHUNK_SIZE [1, 2, 3]) ∧
      (runFrames envTransferFix "nodeA" emptyStore
          (Frame.start "repoR" "repoR.bundle" 3 ::
            ((enumChunks TRANSFER_CHUNK_SIZE [1, 2, 3]).map
              (fun kd => Frame.chunk "repoR" kd.1 kd.2) ++ [Frame.done "repoR"]))).1
        (transferKey envTransferFix "nodeA" "repoR") = some [1, 2, 3] := by
  refine ⟨List.Perm.refl _, ?_⟩
  exact transfer_reassembles_any_order envTransferFix "nodeA" "repoR" "repoR.bundle"
    [1, 2, 3] _ (List.Perm.refl _)

/-! ## RepoId (`src/repo/repo_id.rs`)

`RepoId::generate` concatenates root-commit bytes and creator key,
multihash-encodes their SHA3-256 digest, and multibase-encodes it with
Base58Btc; `parse_from_str` checks the `did:repo:` marker, multibase
decoding, and the base — and only recomputes (never compares) a
multihash, so the decoded payload is not validated as a digest.  The
base-58 big-integer codec is embedded below with fuel-based digit
extraction so everything evaluates in the kernel. -/

/-- Digits of `n` in base `b`, least significant first, with explicit
fuel (`fuel ≥ n` suffices for `b ≥ 2`). -/
def natDigitsAux (b : Nat) : Nat → Nat → List Nat
  | 0, _ => []
  | fuel + 1, n => if n = 0 then [] else n % b :: natDigitsAux b fuel (n / b)

/-- Digits of `n` in base `b`, least significant first. -/
def natDigits (b n : Nat) : List Nat := natDigitsAux b n n

/-- Value of a little-endian digit list in base `b`. -/
def ofDigits (b : Nat) (ds : List Nat) : Nat :=
  ds.foldr (fun d acc => d + b * acc) 0

theorem ofDigits_nil (b : Nat) : ofDigits b [] = 0 := rfl

theorem ofDigits_cons (b d : Nat) (ds : List Nat) :
    ofDigits b (d :: ds) = d + b * ofDigits b ds := rfl

theorem natDigitsAux_fuel {b : Nat} (hb : 2 ≤ b) :
    ∀ f₁ f₂ n, n ≤ f₁ → n ≤ f₂ → natDigitsAux b f₁ n = natDigitsAux b f₂ n := by
  intro f₁
  induction f₁ with
  | zero =>
    intro f₂ n h1 h2
    have hn : n = 0 := by omega
    subst hn
    cases f₂ with
    | zero => rfl
    | succ f => simp [natDigitsAux]
  | succ f₁ ih =>
    intro f₂ n h1 h2
    by_cases hn : n = 0
    · subst hn
      cases f₂ with
      | zero => rfl
      | succ f => simp [natDigitsAux]
    · have hpos : 0 < n := Nat.pos_of_ne_zero hn
      cases f₂ with
      | zero => omega
      | succ f₂' =>
        simp only [natDigitsAux, if_neg hn]
        congr 1
        have hdiv : n / b < n := Nat.div_lt_self hpos hb
        exact ih f₂' (n / b) (by omega) (by omega)

theorem natDigits_zero (b : Nat) : natDigits b 0 = [] := rfl

theorem natDigits_succ {b : Nat} (hb : 2 ≤ b) {n : Nat} (hn : n ≠ 0) :
    natDigits b n = n % b :: natDigits b (n / b) := by
  unfold natDigits
  cases n with
  | zero => exact absurd rfl hn
  | succ m =>
    simp only [natDigitsAux, if_neg hn]
    congr 1
    have hdiv : (m + 1) / b < m + 1 := Nat.div_lt_self (Nat.succ_pos m) hb
    exact natDigitsAux_fuel hb m ((m + 1) / b) ((m + 1) / b) (by omega) (Nat.le_refl _)

theorem ofDigits_natDigits {b : Nat} (hb : 2 ≤ b) (n : Nat) :
    ofDigits b (natDigits b n) = n := by
  induction n using Nat.strong_induction_on with
  | _ n ih =>
    by_cases hn : n = 0
    · subst hn; rfl
    · rw [natDigits_succ hb hn, ofDigits_cons,
        ih (n / b) (Nat.div_lt_self (Nat.pos_of_ne_zero hn) hb)]
      exact Nat.mod_add_div n b

theorem mem_natDigits_lt {b : Nat} (hb : 2 ≤ b) (n : Nat) :
    ∀ d ∈ natDigits b n, d < b := by
  induction n using Nat.strong_induction_on with
  | _ n ih =>
    intro d hd
    by_cases hn : n = 0
    · subst hn; cases hd
    · rw [natDigits_succ hb hn] at hd
      rcases List.mem_cons.mp hd with heq | htail
      · subst heq; exact Nat.mod_lt _ (by omega)
      · exact ih (n / b) (Nat.div_lt_self (Nat.pos_of_ne_zero hn) hb) d htail

theorem natDigits_eq_nil_iff {b : Nat} (hb : 2 ≤ b) {n : Nat} :
    natDigits b n = [] ↔ n = 0 := by
  constructor
  · intro h
    by_contra hn
    rw [natDigits_succ hb hn] at h
    cases h
  · intro h; subst h; rfl

theorem natDigits_getLast?_ne_zero {b : Nat} (hb : 2 ≤ b) (n : Nat) :
    natDigits b n ≠ [] → (natDigits b n).getLast? ≠ some 0 := by
  induction n using Nat.strong_induction_on with
  | _ n ih =>
    intro hne
    have hn : n ≠ 0 := fun h => hne ((natDigits_eq_nil_iff hb).mpr h)
    rw [natDigits_succ hb hn]
    cases hdiv : natDigits b (n / b) with
    | nil =>
      have hnb : n / b = 0 := (natDigits_eq_nil_iff hb).mp hdiv
      have hlt : n < b := (Nat.div_eq_zero_iff (by omega)).mp hnb
      rw [List.getLast?_singleton, Nat.mod_eq_of_lt hlt]
      intro h
      exact hn (Option.some.inj h)
    | cons x t =>
      rw [List.getLast?_cons_cons, ← hdiv]
      exact ih (n / b) (Nat.div_lt_self (Nat.pos_of_ne_zero hn) hb)
        (by rw [hdiv]; exact List.cons_ne_nil x t)

theorem ofDigits_pos {b : Nat} (hb : 2 ≤ b) :
    ∀ ds : List Nat, ds ≠ [] → ds.getLast? ≠ some 0 → 0 < ofDigits b ds := by
  intro ds
  induction ds with
  | nil => intro h; exact absurd rfl h
  | cons d t ih =>
    intro _ hlast
    cases t with
    | nil =>
      rw [List.getLast?_singleton] at hlast
      have hd : d ≠ 0 := fun h => hlast (by rw [h])
      rw [ofDigits_cons, ofDigits_nil]
      omega
    | cons x t' =>
      rw [List.getLast?_cons_cons] at hlast
      have := ih (List.cons_ne_nil x t') hlast
      rw [ofDigits_cons]
      have : b * ofDigits b (x :: t') ≥ b * 1 := Nat.mul_le_mul_left b this
      omega

theorem natDigits_ofDigits {b : Nat} (hb : 2 ≤ b) :
    ∀ ds : List Nat, (∀ d ∈ ds, d < b) → ds.getLast? ≠ some 0 →
      natDigits b (ofDigits b ds) = ds := by
  intro ds
  induction ds with
  | nil => intro _ _; rfl
  | cons d t ih =>
    intro hlt hlast
    have hd : d < b := hlt d (List.mem_cons_self ..)
    cases t with
    | nil =>
      rw [List.getLast?_singleton] at hlast
      have hdne : d ≠ 0 := fun h => hlast (by rw [h])
      have hn : ofDigits b [d] = d := by rw [ofDigits_cons, ofDigits_nil]; omega
      rw [hn, natDigits_succ hb hdne, Nat.mod_eq_of_lt hd, Nat.div_eq_of_lt hd, natDigits_zero]
    | cons x t' =>
      rw [List.getLast?_cons_cons] at hlast
      have htail := ih (fun e he => hlt e (List.mem_cons_of_mem d he)) hlast
      have hkpos : 0 < ofDigits b (x :: t') := ofDigits_pos hb _ (List.cons_ne_nil x t') hlast
      rw [ofDigits_cons]
      have hne : d + b * ofDigits b (x :: t') ≠ 0 := by
        have : b * ofDigits b (x :: t') ≥ b * 1 := Nat.mul_le_mul_left b hkpos
        omega
      rw [natDigits_succ hb hne, Nat.add_mul_mod_self_left, Nat.mod_eq_of_lt hd,
        Nat.add_mul_div_left d _ (by omega : 0 < b), Nat.div_eq_of_lt hd, Nat.zero_add, htail]

/-- The Bitcoin base-58 alphabet. -/
def b58Alphabet : List Char :=
  "123456789ABCDEFGHJKLMNPQRSTUVWXYZabcdefghijkmnopqrstuvwxyz".toList

/-- Character of one base-58 digit. -/
def b58Char (d : Nat) : Char := b58Alphabet.getD d '1'

/-- Position of a character in a list, counting from `i`. -/
def b58IndexAux : List Char → Nat → Char → Option Nat
  | [], _, _ => none
  | a :: t, i, c => if a = c then some i else b58IndexAux t (i + 1) c

/-- Digit value of one base-58 character. -/
def b58Index (c : Char) : Option Nat := b58IndexAux b58Alphabet 0 c

/-- Digit values of a character string, `none` on the first non-alphabet
character. -/
def b58Vals : List Char → Option (List Nat)
  | [] => some []
  | c :: t =>
    match b58Index c, b58Vals t with
    | some v, some vs => some (v :: vs)
    | _, _ => none

/-- Base-58 (Bitcoin) encoding of a byte string: one `'1'` per leading
zero byte, then the base-58 big-endian digits of the remaining value. -/
def b58Encode (bs : List Nat) : List Char :=
  List.replicate ((bs.takeWhile (fun x => x == 0)).length) '1' ++
    (natDigits 58 (ofDigits 256 bs.reverse)).reverse.map b58Char

/-- Base-58 (Bitcoin) decoding. -/
def b58Decode (cs : List Char) : Option (List Nat) :=
  match b58Vals (cs.dropWhile (fun c => c == '1')) with
  | none => none
  | some vals =>
    some (List.replicate ((cs.takeWhile (fun c => c == '1')).length) 0 ++
      (natDigits 256 (ofDigits 58 vals.reverse)).reverse)

theorem b58Alphabet_length : b58Alphabet.length = 58 := by decide

theorem b58Index_b58Char : ∀ d < 58, b58Index (b58Char d) = some d := by decide

theorem b58Char_zero : b58Char 0 = '1' := by decide

theorem b58Char_ne_one : ∀ d < 58, d ≠ 0 → b58Char d ≠ '1' := by decide

theorem b58IndexAux_spec :
    ∀ (l : List Char) (i : Nat) (c : Char) (v : Nat), b58IndexAux l i c = some v →
      i ≤ v ∧ v - i < l.length ∧ l[v - i]? = some c := by
  intro l
  induction l with
  | nil => intro i c v h; cases h
  | cons a t ih =>
    intro i c v h
    simp only [b58IndexAux] at h
    by_cases hac : a = c
    · rw [if_pos hac] at h
      cases h
      refine ⟨Nat.le_refl _, by simp, ?_⟩
      rw [Nat.sub_self]
      simpa using hac
    · rw [if_neg hac] at h
      obtain ⟨h1, h2, h3⟩ := ih (i + 1) c v h
      refine ⟨by omega, by simp; omega, ?_⟩
      have hvi : v - i = (v - (i + 1)) + 1 := by omega
      rw [hvi]
      simpa using h3

theorem b58Index_spec (c : Char) (v : Nat) (h : b58Index c = some v) :
    v < 58 ∧ b58Char v = c := by
  obtain ⟨_, h2, h3⟩ := b58IndexAux_spec b58Alphabet 0 c v h
  rw [Nat.sub_zero] at h2 h3
  rw [b58Alphabet_length] at h2
  refine ⟨h2, ?_⟩
  rw [b58Char, List.getD_eq_getElem?_getD, h3]
  rfl

theorem b58Vals_map : ∀ ds : List Nat, (∀ d ∈ ds, d < 58) →
    b58Vals (ds.map b58Char) = some ds := by
  intro ds
  induction ds with
  | nil => intro _; rfl
  | cons d t ih =>
    intro h
    simp only [List.map_cons, b58Vals]
    rw [b58Index_b58Char d (h d (List.mem_cons_self ..)),
      ih (fun e he => h e (List.mem_cons_of_mem d he))]

theorem b58Vals_spec : ∀ (cs : List Char) (vs : List Nat), b58Vals cs = some vs →
    cs = vs.map b58Char ∧ ∀ v ∈ vs, v < 58 := by
  intro cs
  induction cs with
  | nil =>
    intro vs h
    cases h
    exact ⟨rfl, by intro v hv; cases hv⟩
  | cons c t ih =>
    intro vs h
    simp only [b58Vals] at h
    cases hidx : b58Index c with
    | none => rw [hidx] at h; cases h
    | some v =>
      cases hrec : b58Vals t with
      | none => rw [hidx, hrec] at h; cases h
      | some vs' =>
        rw [hidx, hrec] at h
        cases h
        obtain ⟨hv1, hv2⟩ := b58Index_spec c v hidx
        obtain ⟨ht1, ht2⟩ := ih vs' hrec
        refine ⟨by rw [List.map_cons, hv2, ← ht1], ?_⟩
        intro u hu
        rcases List.mem_cons.mp hu with rfl | hu'
        · exact hv1
        · exact ht2 u hu'

theorem ofDigits_append_zeros (b : Nat) :
    ∀ (ds : List Nat) (z : Nat), ofDigits b (ds ++ List.replicate z 0) = ofDigits b ds := by
  intro ds
  induction ds with
  | nil =>
    intro z
    rw [List.nil_append, ofDigits_nil]
    induction z with
    | zero => rfl
    | succ z ihz =>
      rw [List.replicate_succ, ofDigits_cons, ihz]
      omega
  | cons d t ih =>
    intro z
    rw [List.cons_append, ofDigits_cons, ofDigits_cons, ih]

theorem b58Decode_bytes_lt (cs : List Char) (bs : List Nat) (h : b58Decode cs = some bs) :
    ∀ x ∈ bs, x < 256 := by
  simp only [b58Decode] at h
  cases hv : b58Vals (cs.dropWhile (fun c => c == '1')) with
  | none => rw [hv] at h; cases h
  | some vals =>
    rw [hv] at h
    cases h
    intro x hx
    rcases List.mem_append.mp hx with hz | hd
    · have := List.eq_of_mem_replicate hz
      omega
    · exact mem_natDigits_lt (by omega) _ x (List.mem_reverse.mp hd)

theorem b58_roundtrip_core (z : Nat) (rest : List Nat) (hhead : rest.head? ≠ some 0)
    (hlt : ∀ x ∈ rest, x < 256) :
    b58Decode (b58Encode (List.replicate z 0 ++ rest)) = some (List.replicate z 0 ++ rest) := by
  have h256 : (2 : Nat) ≤ 256 := by omega
  have h58 : (2 : Nat) ≤ 58 := by omega
  cases rest with
  | nil =>
    have henc : b58Encode (List.replicate z 0 ++ []) = List.replicate z '1' := by
      rw [List.append_nil, b58Encode, List.takeWhile_replicate, if_pos (by decide),
        List.length_replicate, List.reverse_replicate]
      have : ofDigits 256 (List.replicate z 0) = 0 := by
        have := ofDigits_append_zeros 256 [] z
        rwa [List.nil_append, ofDigits_nil] at this
      rw [this, natDigits_zero, List.reverse_nil, List.map_nil, List.append_nil]
    rw [henc, b58Decode, List.dropWhile_replicate, if_pos (by decide)]
    show some _ = _
    rw [List.takeWhile_replicate, if_pos (by decide), List.length_replicate]
    simp only [List.reverse_nil, ofDigits_nil, natDigits_zero, List.append_nil]
  | cons h0 t0 =>
    have hh0 : h0 ≠ 0 := by
      intro h
      exact hhead (by rw [List.head?_cons, h])
    have hlast : (h0 :: t0).reverse.getLast? = some h0 := by
      rw [List.getLast?_reverse, List.head?_cons]
    have hlastne : (h0 :: t0).reverse.getLast? ≠ some 0 := by
      rw [hlast]
      intro h
      exact hh0 (Option.some.inj h)
    have hrevlt : ∀ x ∈ (h0 :: t0).reverse, x < 256 := by
      intro x hx
      exact hlt x (List.mem_reverse.mp hx)
    have hdig256 : natDigits 256 (ofDigits 256 (h0 :: t0).reverse) = (h0 :: t0).reverse :=
      natDigits_ofDigits h256 _ hrevlt hlastne
    have hnpos : 0 < ofDigits 256 (h0 :: t0).reverse :=
      ofDigits_pos h256 _ (by simp) hlastne
    have hne58 : natDigits 58 (ofDigits 256 (h0 :: t0).reverse) ≠ [] := by
      intro h
      have := (natDigits_eq_nil_iff h58).mp h
      omega
    obtain ⟨dl, hdl⟩ : ∃ dl, (natDigits 58 (ofDigits 256 (h0 :: t0).reverse)).getLast? =
        some dl := by
      cases hq : (natDigits 58 (ofDigits 256 (h0 :: t0).reverse)).getLast? with
      | none => exact absurd (List.getLast?_eq_none_iff.mp hq) hne58
      | some x => exact ⟨x, rfl⟩
    have hdl58 : dl < 58 :=
      mem_natDigits_lt h58 _ dl (List.mem_of_getLast?_eq_some hdl)
    have hdlne : dl ≠ 0 := by
      intro h
      exact natDigits_getLast?_ne_zero h58 _ hne58 (by rw [hdl, h])
    have hchars_head :
        ((natDigits 58 (ofDigits 256 (h0 :: t0).reverse)).reverse.map b58Char).head? =
          some (b58Char dl) := by
      rw [List.head?_map, List.head?_reverse, hdl]
      rfl
    obtain ⟨c0, ct, hchars⟩ :
        ∃ c0 ct, (natDigits 58 (ofDigits 256 (h0 :: t0).reverse)).reverse.map b58Char =
          c0 :: ct := by
      cases hq : (natDigits 58 (ofDigits 256 (h0 :: t0).reverse)).reverse.map b58Char with
      | nil => rw [hq, List.head?_nil] at hchars_head; cases hchars_head
      | cons a b => exact ⟨a, b, rfl⟩
    have hc0 : c0 = b58Char dl := by
      rw [hchars, List.head?_cons] at hchars_head
      exact Option.some.inj hchars_head
    have hc0ne : (c0 == '1') = false := by
      rw [beq_eq_false_iff_ne, hc0]
      exact b58Char_ne_one dl hdl58 hdlne
    have hc0ne' : ¬ ((fun c => c == '1') c0 = true) := by
      show ¬ ((c0 == '1') = true)
      rw [hc0ne]
      exact Bool.false_ne_true
    have henc : b58Encode (List.replicate z 0 ++ (h0 :: t0)) =
        List.replicate z '1' ++ (c0 :: ct) := by
      rw [b58Encode, List.takeWhile_append_of_pos (by
          intro a ha
          rw [List.eq_of_mem_replicate ha]
          rfl),
        List.takeWhile_cons, if_neg (by
          show ¬ ((h0 == 0) = true)
          rw [beq_eq_false_iff_ne.mpr hh0]
          exact Bool.false_ne_true)]
      rw [List.append_nil, List.length_replicate, List.reverse_append,
        List.reverse_replicate, ofDigits_append_zeros, hchars]
    have hdw : (List.replicate z '1' ++ (c0 :: ct)).dropWhile (fun c => c == '1') =
        c0 :: ct := by
      rw [List.dropWhile_append_of_pos (by
          intro a ha
          rw [List.eq_of_mem_replicate ha]
          rfl),
        List.dropWhile_cons, if_neg hc0ne']
    have htw : (List.replicate z '1' ++ (c0 :: ct)).takeWhile (fun c => c == '1') =
        List.replicate z '1' := by
      rw [List.takeWhile_append_of_pos (by
          intro a ha
          rw [List.eq_of_mem_replicate ha]
          rfl),
        List.takeWhile_cons, if_neg hc0ne', List.append_nil]
    have hvals : b58Vals (c0 :: ct) =
        some (natDigits 58 (ofDigits 256 (h0 :: t0).reverse)).reverse := by
      rw [← hchars]
      exact b58Vals_map _ (fun d hd => mem_natDigits_lt h58 _ d (List.mem_reverse.mp hd))
    rw [henc, b58Decode, hdw, hvals]
    show some _ = _
    rw [htw, List.length_replicate, List.reverse_reverse, ofDigits_natDigits h58, hdig256,
      List.reverse_reverse]

/-- Encode-then-decode roundtrip for base 58. -/
theorem b58Decode_b58Encode (bs : List Nat) (hbs : ∀ x ∈ bs, x < 256) :
    b58Decode (b58Encode bs) = some bs := by
  have htake : bs.takeWhile (fun x => x == 0) =
      List.replicate ((bs.takeWhile (fun x => x == 0)).length) 0 :=
    List.eq_replicate_of_mem (by
      intro x hx
      have := List.mem_takeWhile_imp hx
      simpa using this)
  have hsplit : List.replicate ((bs.takeWhile (fun x => x == 0)).length) 0 ++
      bs.dropWhile (fun x => x == 0) = bs := by
    conv_rhs => rw [← List.takeWhile_append_dropWhile (fun x => x == 0) bs]
    rw [← htake]
  have hhead : (bs.dropWhile (fun x => x == 0)).head? ≠ some 0 := by
    have hmatch := List.head?_dropWhile_not (fun x => x == 0) bs
    cases hq : (bs.dropWhile (fun x => x == 0)).head? with
    | none => intro h; cases h
    | some x =>
      rw [hq] at hmatch
      intro h
      have hx0 : x = 0 := Option.some.inj h
      rw [hx0] at hmatch
      cases hmatch
  have hlt : ∀ x ∈ bs.dropWhile (fun x => x == 0), x < 256 := by
    intro x hx
    exact hbs x (by rw [← hsplit]; exact List.mem_append.mpr (Or.inr hx))
  rw [← hsplit]
  exact b58_roundtrip_core _ _ hhead hlt

/-- Decode-then-encode roundtrip: base-58 decoding succeeds only on the
canonical encoding of its result. -/
theorem b58Encode_b58Decode (cs : List Char) (bs : List Nat) (h : b58Decode cs = some bs) :
    b58Encode bs = cs := by
  have h58 : (2 : Nat) ≤ 58 := by omega
  have h256 : (2 : Nat) ≤ 256 := by omega
  simp only [b58Decode] at h
  cases hv : b58Vals (cs.dropWhile (fun c => c == '1')) with
  | none => rw [hv] at h; cases h
  | some vals =>
    rw [hv] at h
    injection h with h
    subst h
    obtain ⟨hmap, hvlt⟩ := b58Vals_spec _ vals hv
    have htakecs : cs.takeWhile (fun c => c == '1') =
        List.replicate ((cs.takeWhile (fun c => c == '1')).length) '1' :=
      List.eq_replicate_of_mem (by
        intro x hx
        have := List.mem_takeWhile_imp hx
        simpa using this)
    have hsplitcs : List.replicate ((cs.takeWhile (fun c => c == '1')).length) '1' ++
        cs.dropWhile (fun c => c == '1') = cs := by
      conv_rhs => rw [← List.takeWhile_append_dropWhile (fun c => c == '1') cs]
      rw [← htakecs]
    cases hrest : cs.dropWhile (fun c => c == '1') with
    | nil =>
      rw [hrest] at hmap
      have hvnil : vals = [] := by
        cases vals with
        | nil => rfl
        | cons a b => rw [List.map_cons] at hmap; cases hmap
      subst hvnil
      simp only [List.reverse_nil, ofDigits_nil, natDigits_zero, List.append_nil]
      rw [b58Encode, List.takeWhile_replicate, if_pos (by decide), List.length_replicate,
        List.reverse_replicate]
      have hz : ofDigits 256 (List.replicate ((cs.takeWhile (fun c => c == '1')).length) 0) =
          0 := by
        have := ofDigits_append_zeros 256 [] ((cs.takeWhile (fun c => c == '1')).length)
        rwa [List.nil_append, ofDigits_nil] at this
      rw [hz, natDigits_zero, List.reverse_nil, List.map_nil, List.append_nil]
      rw [hrest, List.append_nil] at hsplitcs
      exact hsplitcs
    | cons c0 ct =>
      rw [hrest] at hmap
      obtain ⟨v0, vt, hvals⟩ : ∃ v0 vt, vals = v0 :: vt := by
        cases vals with
        | nil => cases hmap
        | cons a b => exact ⟨a, b, rfl⟩
      subst hvals
      rw [List.map_cons] at hmap
      have hc0 : c0 = b58Char v0 := by
        have hh := congrArg List.head? hmap
        rw [List.head?_cons, List.head?_cons] at hh
        exact Option.some.inj hh
      have hct : ct = List.map b58Char vt := by
        have hh := congrArg List.tail hmap
        simpa using hh
      have hc0ne : (c0 == '1') = false := by
        have hmatch := List.head?_dropWhile_not (fun c => c == '1') cs
        rw [hrest, List.head?_cons] at hmatch
        exact hmatch
      have hv0ne : v0 ≠ 0 := by
        intro h
        rw [h, b58Char_zero] at hc0
        rw [hc0] at hc0ne
        simp at hc0ne
      have hlastvals : (v0 :: vt).reverse.getLast? ≠ some 0 := by
        rw [List.getLast?_reverse, List.head?_cons]
        intro h
        exact hv0ne (Option.some.inj h)
      have hvrevlt : ∀ v ∈ (v0 :: vt).reverse, v < 58 := by
        intro v hvm
        exact hvlt v (List.mem_reverse.mp hvm)
      have hdig58 : natDigits 58 (ofDigits 58 (v0 :: vt).reverse) = (v0 :: vt).reverse :=
        natDigits_ofDigits h58 _ hvrevlt hlastvals
      have hmpos : 0 < ofDigits 58 (v0 :: vt).reverse :=
        ofDigits_pos h58 _ (by simp) hlastvals
      have hbne : natDigits 256 (ofDigits 58 (v0 :: vt).reverse) ≠ [] := by
        intro h
        have := (natDigits_eq_nil_iff h256).mp h
        omega
      obtain ⟨b0, hb0⟩ : ∃ b0,
          (natDigits 256 (ofDigits 58 (v0 :: vt).reverse)).getLast? = some b0 := by
        cases hq : (natDigits 256 (ofDigits 58 (v0 :: vt).reverse)).getLast? with
        | none => exact absurd (List.getLast?_eq_none_iff.mp hq) hbne
        | some x => exact ⟨x, rfl⟩
      have hb0ne : b0 ≠ 0 := by
        intro h
        exact natDigits_getLast?_ne_zero h256 _ hbne (by rw [hb0, h])
      obtain ⟨b0', bt, hbytes⟩ : ∃ b0' bt,
          (natDigits 256 (ofDigits 58 (v0 :: vt).reverse)).reverse = b0' :: bt := by
        cases hq : (natDigits 256 (ofDigits 58 (v0 :: vt).reverse)).reverse with
        | nil =>
          exact absurd (by rw [← List.reverse_reverse
            (natDigits 256 (ofDigits 58 (v0 :: vt).reverse)), hq]; rfl) hbne
        | cons a b => exact ⟨a, b, rfl⟩
      have hb0' : b0' = b0 := by
        have := List.head?_reverse (natDigits 256 (ofDigits 58 (v0 :: vt).reverse))
        rw [hbytes, List.head?_cons, hb0] at this
        exact Option.some.inj this
      rw [b58Encode, hbytes,
        List.takeWhile_append_of_pos (by
          intro a ha
          rw [List.eq_of_mem_replicate ha]
          rfl),
        List.takeWhile_cons, if_neg (by
          show ¬ ((b0' == 0) = true)
          rw [beq_eq_false_iff_ne.mpr (hb0' ▸ hb0ne)]
          exact Bool.false_ne_true)]
      rw [List.append_nil, List.length_replicate, List.reverse_append,
        List.reverse_replicate, ← hbytes, List.reverse_reverse, ofDigits_append_zeros,
        ofDigits_natDigits h256, hdig58, List.reverse_reverse, List.map_cons, ← hc0,
        ← hct, ← hrest]
      exact hsplitcs

/-- Multibase bases; only Base58Btc is exercised on this code path. -/
inductive MBase where
  | base58btc : MBase
  deriving DecidableEq

/-- Multibase encoding with Base58Btc: marker character `'z'`. -/
def multibaseEncode (bs : List Nat) : List Char := 'z' :: b58Encode bs

/-- Multibase decoding, modelled for the Base58Btc marker; any other
leading character fails (in the source a foreign base decodes and is
then rejected by the base check — the success set is the same). -/
def multibaseDecode (cs : List Char) : Option (MBase × List Nat) :=
  match cs with
  | c :: rest =>
    if c = 'z' then (b58Decode rest).map (fun bs => (MBase.base58btc, bs)) else none
  | [] => none

/-- The `did:repo:` marker (the `REPO_KEY_` constant of the source). -/
def repoKeyMarker : List Char := "did:repo:".toList

/-- `multihash::encode(Hash::SHA3256, data)`: code 0x16 and length 32
followed by the digest; total for this hash. -/
def multihashEncode (sha3 : List Nat → List Nat) (data : List Nat) : List Nat :=
  22 :: 32 :: sha3 data

/-- `RepoId::generate(root_commit, creator_public_key)`. -/
def generateRepoId (sha3 : List Nat → List Nat) (rootCommit creatorKey : List Nat) :
    List Char :=
  repoKeyMarker ++ multibaseEncode (multihashEncode sha3 (rootCommit ++ creatorKey))

/-- `RepoId::parse_from_str`: marker check, non-empty check, multibase
decode, base check; the multihash recomputation is total and its result
is discarded, so the decoded payload is never validated as a digest. -/
def parseFromStr (sha3 : List Nat → List Nat) (s : List Char) : Option (List Char) :=
  if repoKeyMarker.isPrefixOf s = false then none
  else if s.drop repoKeyMarker.length = [] then none
  else
    match multibaseDecode (s.drop repoKeyMarker.length) with
    | none => none
    | some (b, data) =>
      if b ≠ MBase.base58btc then none
      else
        let _digest := multihashEncode sha3 data
        some s

/-- C10: `parse_from_str` succeeds exactly on `did:repo:` followed by
the (non-empty) Base58Btc multibase encoding of an arbitrary byte
string, returns its input verbatim, and never validates the decoded
payload as a multihash digest; in particular
`parse_from_str(generate(c, k)) = generate(c, k)`. -/
theorem repo_id_parse_exact (sha3 : List Nat → List Nat) :
    (∀ s r, parseFromStr sha3 s = some r → r = s) ∧
    (∀ s, (∃ r, parseFromStr sha3 s = some r) ↔
      ∃ bs, (∀ x ∈ bs, x < 256) ∧ s = repoKeyMarker ++ multibaseEncode bs) ∧
    (∀ c k, (∀ x ∈ sha3 (c ++ k), x < 256) →
      parseFromStr sha3 (generateRepoId sha3 c k) = some (generateRepoId sha3 c k)) := by
  have hverbatim : ∀ s r, parseFromStr sha3 s = some r → r = s := by
    intro s r h
    unfold parseFromStr at h
    repeat' split at h
    all_goals (cases h <;> rfl)
  have hsound : ∀ s, (∃ r, parseFromStr sha3 s = some r) →
      ∃ bs, (∀ x ∈ bs, x < 256) ∧ s = repoKeyMarker ++ multibaseEncode bs := by
    rintro s ⟨r, h⟩
    unfold parseFromStr at h
    by_cases h1 : repoKeyMarker.isPrefixOf s = false
    · rw [if_pos h1] at h; cases h
    · rw [if_neg h1] at h
      by_cases h2 : s.drop repoKeyMarker.length = []
      · rw [if_pos h2] at h; cases h
      · rw [if_neg h2] at h
        have hpre : repoKeyMarker <+: s := by
          rw [← List.isPrefixOf_iff_prefix]
          cases hq : repoKeyMarker.isPrefixOf s with
          | false => exact absurd hq (by simpa using h1)
          | true => rfl
        obtain ⟨t, ht⟩ := hpre
        have hdropt : s.drop repoKeyMarker.length = t := by
          rw [← ht, List.drop_left]
        cases hdrop : s.drop repoKeyMarker.length with
        | nil => exact absurd hdrop h2
        | cons c rest =>
          rw [hdrop] at h
          rw [show multibaseDecode (c :: rest) =
              (if c = 'z' then (b58Decode rest).map (fun bs => (MBase.base58btc, bs)) else none)
            from rfl] at h
          by_cases hc : c = 'z'
          · rw [if_pos hc] at h
            cases hdec : b58Decode rest with
            | none => rw [hdec] at h; cases h
            | some data =>
              rw [hdec] at h
              refine ⟨data, b58Decode_bytes_lt rest data hdec, ?_⟩
              rw [← ht]
              have htr : t = c :: rest := by rw [← hdropt, hdrop]
              rw [htr, hc, multibaseEncode, b58Encode_b58Decode rest data hdec]
          · rw [if_neg hc] at h; cases h
  have hcomplete : ∀ (bs : List Nat), (∀ x ∈ bs, x < 256) →
      parseFromStr sha3 (repoKeyMarker ++ multibaseEncode bs) =
        some (repoKeyMarker ++ multibaseEncode bs) := by
    intro bs hbs
    have hdrop : (repoKeyMarker ++ multibaseEncode bs).drop repoKeyMarker.length =
        multibaseEncode bs := List.drop_left _ _
    have hpf : ¬ (repoKeyMarker.isPrefixOf (repoKeyMarker ++ multibaseEncode bs) = false) := by
      rw [List.isPrefixOf_iff_prefix.mpr (List.prefix_append _ _)]
      simp
    have hmb : multibaseDecode (multibaseEncode bs) = some (MBase.base58btc, bs) := by
      rw [show multibaseDecode (multibaseEncode bs) =
          (if ('z' : Char) = 'z' then
            (b58Decode (b58Encode bs)).map (fun v => (MBase.base58btc, v))
          else none) from rfl,
        if_pos rfl, b58Decode_b58Encode bs hbs]
      rfl
    unfold parseFromStr
    rw [if_neg hpf, hdrop,
      if_neg (show ¬ (multibaseEncode bs = []) from List.cons_ne_nil _ _), hmb]
    rfl
  refine ⟨hverbatim, ?_, ?_⟩
  · intro s
    constructor
    · exact hsound s
    · rintro ⟨bs, hbs, hs⟩
      exact ⟨s, by rw [hs]; exact hcomplete bs hbs⟩
  · intro c k hsha
    have hb : ∀ x ∈ multihashEncode sha3 (c ++ k), x < 256 := by
      intro x hx
      rcases List.mem_cons.mp hx with rfl | hx'
      · omega
      · rcases List.mem_cons.mp hx' with rfl | hx''
        · omega
        · exact hsha x hx''
    exact hcomplete (multihashEncode sha3 (c ++ k)) hb

/-- Witness for C10 at a concrete digest function and inputs. -/
theorem repo_id_parse_exact_witness :
    (∀ x ∈ (fun _ => [7]) (([1] : List Nat) ++ [2]), x < 256) ∧
      parseFromStr (fun _ => [7]) (generateRepoId (fun _ => [7]) [1] [2]) =
        some (generateRepoId (fun _ => [7]) [1] [2]) := by
  refine ⟨by decide, ?_⟩
  exact (repo_id_parse_exact (fun _ => [7])).2.2 [1] [2] (by decide)

end Megaengine
